import Mathlib

/-!
Verification of the catalog synchronization engine of the UID_COPY
repository (i18n translation maintenance scripts).

The development shallowly embeds the pure cores of:
* `deepMerge` / `updateTranslations` (src/lib/translation-updater.js),
* `extractAllKeys` / `validateTranslationStructure` /
  `updateCompleteTranslations` (src/lib/translation-updater.js),
* `extractKeys` / `compare` (src/lib/file-comparator.js),
* `validatePlaceholderConsistency` and its placeholder regex
  (src/unnamed/part_001, the validator module),
* `escapeCSVValue` / `createCSVRow` (src/new-keys-csv-extractor.js).

JSON documents are modelled as `UID.Tree`: internal nodes are ordered
association lists (JavaScript objects preserve insertion order), string
leaves are `Tree.str`, and every other runtime value that the code
routes through its "primitive" branches (numbers, booleans, null,
arrays) is modelled as an opaque `Tree.other` leaf, since the code
distinguishes only "plain object" from "everything else"
(`value && typeof value === 'object' && !Array.isArray(value)`).
File system access is factored out: functions receive the parsed trees
that the JavaScript code reads from disk, and the effectful
`updateCompleteTranslations` is modelled as a function returning the
ordered list of observable events (backup, validation failure, write,
restore) together with its success flag.
-/

namespace UID

/-- JSON-like document tree.  `node` carries the object's entries in
insertion order; `str` is a string leaf; `other` stands for any value
the JavaScript code treats as non-mergeable (number, boolean, null,
array), which it never inspects further. -/
inductive Tree where
  | str (s : String)
  | other (tag : Nat)
  | node (entries : List (String × Tree))
deriving Repr, Inhabited

/-- `key in result` test of JavaScript, over an association list. -/
def containsKey (es : List (String × Tree)) (k : String) : Bool :=
  es.any (fun e => e.1 == k)

/-- `result[key]` read: value of the first entry with key `k`. -/
def lookupVal : List (String × Tree) → String → Option Tree
  | [], _ => none
  | (k', v') :: rest, k => if k' = k then some v' else lookupVal rest k

/-- `result[key] = value` assignment on a JavaScript object: replaces
the value in place if the key exists (keeping its position), otherwise
appends the new entry at the end. -/
def setKey : List (String × Tree) → String → Tree → List (String × Tree)
  | [], k, v => [(k, v)]
  | (k', v') :: rest, k, v =>
      if k' = k then (k', v) :: rest else (k', v') :: setKey rest k v

mutual

/-- `deepMerge(target, source)` of src/lib/translation-updater.js.
For each entry of `source`: a plain-object value is merged recursively
when `target` also holds a plain object there and otherwise assigned;
a primitive value is added only when the key is absent from `target`
("For primitive values, only add if not already present in target").
The result starts as `{ ...target }`. -/
def deepMerge (target source : Tree) : Tree :=
  match target, source with
  | .node t, .node s => .node (mergeEntries t s)
  | t, _ => t

/-- The `for (const [key, value] of Object.entries(source))` loop of
`deepMerge`, acting on the accumulating result object. -/
def mergeEntries (acc : List (String × Tree)) : List (String × Tree) → List (String × Tree)
  | [] => acc
  | (k, v) :: rest =>
      let acc' :=
        match v with
        | .node _ =>
          match lookupVal acc k with
          | some (.node tv) => setKey acc k (deepMerge (.node tv) v)
          | _ => setKey acc k v
        | _ => if containsKey acc k then acc else acc ++ [(k, v)]
      mergeEntries acc' rest

end

/-- The merge step of `updateTranslations` (src/lib/translation-updater.js):
`overwriteExisting ? deepMerge(originalContent, newTranslations)
                  : deepMerge(newTranslations, originalContent)`. -/
def updateMerge (originalContent newTranslations : Tree) (overwriteExisting : Bool) : Tree :=
  if overwriteExisting then deepMerge originalContent newTranslations
  else deepMerge newTranslations originalContent

mutual

/-- Well-formedness of a document tree: at every object node the keys
are pairwise distinct, as is automatic for JavaScript objects. -/
def wellFormedT : Tree → Bool
  | .str _ => true
  | .other _ => true
  | .node es => decide ((es.map Prod.fst).Nodup) && wfEntries es

/-- All subtrees of an entry list are well-formed. -/
def wfEntries : List (String × Tree) → Bool
  | [] => true
  | (_, v) :: rest => wellFormedT v && wfEntries rest

end

/-- The ternary `prefix ? prefix + "." + key : key` used by both
`extractKeys` (src/lib/file-comparator.js) and `extractAllKeys`
(src/lib/translation-updater.js). -/
def joinKey (pre k : String) : String :=
  if pre = "" then k else pre ++ "." ++ k

mutual

/-- Pre-order key-path listing shared by `extractKeys`
(src/lib/file-comparator.js) and `extractAllKeys`
(src/lib/translation-updater.js): every key, container or leaf, is
recorded under its dotted path; recursion descends only into plain
objects (a leaf contributes no nested paths).  The JavaScript
functions collect the paths into a `Set`; here the listing keeps
duplicates and membership/`dedupFirst` recover the set view. -/
def keyList (pre : String) (t : Tree) : List String :=
  match t with
  | .node es => keyListEntries pre es
  | _ => []
termination_by structural t

/-- Key-path listing of an entry list: for each entry, its dotted path
followed by the paths inside its value, then the remaining entries. -/
def keyListEntries (pre : String) (l : List (String × Tree)) : List String :=
  match l with
  | [] => []
  | (k, v) :: rest =>
      (joinKey pre k :: keyList (joinKey pre k) v) ++ keyListEntries pre rest
termination_by structural l

end

/-- Insertion-order deduplication, the `new Set(list)` of JavaScript:
keeps the first occurrence of each element. -/
def dedupFirstAux : List String → List String → List String
  | [], _ => []
  | x :: rest, seen =>
      if seen.contains x then dedupFirstAux rest seen
      else x :: dedupFirstAux rest (x :: seen)

/-- `new Set(l)` as a duplicate-free list in first-occurrence order. -/
def dedupFirst (l : List String) : List String :=
  dedupFirstAux l []

/-- The set of key paths of a catalog, as produced by
`extractKeys(obj)` / `extractAllKeys(obj)` collecting into a `Set`. -/
def extractKeys (t : Tree) : List String :=
  dedupFirst (keyList "" t)

/-- Number of binary digits of `n`, computed with a structural fuel
argument (any fuel `≥ n` gives the bit length; `blen` passes `n`). -/
def blenAux : Nat → Nat → Nat
  | 0, _ => 0
  | fuel + 1, n => if n = 0 then 0 else blenAux fuel (n / 2) + 1

/-- Bit length: `2 ^ (blen n - 1) ≤ n < 2 ^ blen n` for `n ≥ 1`. -/
def blen (n : Nat) : Nat :=
  blenAux n n

/-- Round `n / d` to the nearest integer, ties to even — the rounding
mode IEEE-754 binary64 arithmetic applies to every operation result. -/
def rne (n d : Nat) : Nat :=
  let q := n / d
  let r := n % d
  if 2 * r < d then q
  else if d < 2 * r then q + 1
  else if q % 2 = 0 then q else q + 1

/-- IEEE-754 binary64 rounding of the exact quotient `n / d` (for
`n, d ≥ 1`), as a pair `(m, e)` whose value is `m * 2 ^ (e - 52)`:
`e` is chosen with `2 ^ e ≤ n / d < 2 ^ (e + 1)` and the 53-bit
significand is rounded to nearest, ties to even.  The exponent is not
clamped, so overflow and subnormal underflow are not modelled; they
cannot occur for the percentage computation at any realistic key
count. -/
def fpDiv (n d : Nat) : Nat × ℤ :=
  let e : ℤ :=
    if d * 2 ^ blen n ≤ n * 2 ^ blen d then (blen n : ℤ) - blen d
    else (blen n : ℤ) - blen d - 1
  (rne (n * 2 ^ (52 - e).toNat) (d * 2 ^ (e - 52).toNat), e)

/-- The exact rational value of the double `(m, e)`. -/
def fpVal (me : Nat × ℤ) : ℚ :=
  (me.1 : ℚ) * 2 ^ (me.2 - 52)

/-- `Math.round` of the nonnegative double `(m, e)`: the integer
closest to its exact value, half-way cases toward positive infinity
(the ECMAScript definition works on the exact value of the double). -/
def fpRoundHalfUp (me : Nat × ℤ) : Nat :=
  if 52 ≤ me.2 then me.1 * 2 ^ (me.2 - 52).toNat
  else (2 * me.1 + 2 ^ (52 - me.2).toNat) / 2 ^ ((52 - me.2).toNat + 1)

/-- `Math.round(((a / b)) * 100)` exactly as JavaScript computes it for
natural counts `a ≤ b`: the division and the multiplication by 100 are
each rounded to binary64 (round to nearest, ties to even), and
`Math.round` is applied to the resulting double.  For `a = 0` the
result is `0` (`0 / b` is exactly `+0`). -/
def pct64 (a b : Nat) : Nat :=
  if a = 0 then 0
  else
    fpRoundHalfUp (fpDiv ((fpDiv a b).1 * 100 * 2 ^ ((fpDiv a b).2 - 52).toNat)
      (2 ^ (52 - (fpDiv a b).2).toNat))

/-- Result record of `compare` (src/lib/file-comparator.js), keeping
the fields the specification talks about.  `completionPercentage` is
`Option ℕ`: `none` models the IEEE `NaN` that
`Math.round(((ref - missing) / ref) * 100)` produces when the
reference key set is empty (0/0); otherwise it holds the binary64
computation `pct64` of that expression. -/
structure CompareResult where
  missingKeys : List String
  extraKeys : List String
  missingCount : Nat
  extraCount : Nat
  totalReferenceKeys : Nat
  totalTargetKeys : Nat
  completionPercentage : Option Nat
deriving Repr, DecidableEq

/-- Pure core of `compare(referencePath, targetPath)`
(src/lib/file-comparator.js), applied to the two parsed documents:
key sets of both sides, set differences for missing/extra, and the
completion percentage `Math.round(((refKeys.size - missingKeys.size) /
refKeys.size) * 100)`, which is `NaN` (modelled `none`) when
`refKeys.size = 0`. -/
def compare (reference target : Tree) : CompareResult :=
  let referenceKeys := extractKeys reference
  let targetKeys := extractKeys target
  let missingKeys := referenceKeys.filter (fun k => !(targetKeys.contains k))
  let extraKeys := targetKeys.filter (fun k => !(referenceKeys.contains k))
  { missingKeys := missingKeys
    extraKeys := extraKeys
    missingCount := missingKeys.length
    extraCount := extraKeys.length
    totalReferenceKeys := referenceKeys.length
    totalTargetKeys := targetKeys.length
    completionPercentage :=
      if referenceKeys.length = 0 then none
      else some (pct64 (referenceKeys.length - missingKeys.length)
                   referenceKeys.length) }

/-- A concrete reference catalog with 40 flat keys, used to exercise
the floating-point boundary of the completion percentage. -/
def refCatalog40 : Tree :=
  .node [("k01", .str "v"), ("k02", .str "v"), ("k03", .str "v"), ("k04", .str "v"),
    ("k05", .str "v"), ("k06", .str "v"), ("k07", .str "v"), ("k08", .str "v"),
    ("k09", .str "v"), ("k10", .str "v"), ("k11", .str "v"), ("k12", .str "v"),
    ("k13", .str "v"), ("k14", .str "v"), ("k15", .str "v"), ("k16", .str "v"),
    ("k17", .str "v"), ("k18", .str "v"), ("k19", .str "v"), ("k20", .str "v"),
    ("k21", .str "v"), ("k22", .str "v"), ("k23", .str "v"), ("k24", .str "v"),
    ("k25", .str "v"), ("k26", .str "v"), ("k27", .str "v"), ("k28", .str "v"),
    ("k29", .str "v"), ("k30", .str "v"), ("k31", .str "v"), ("k32", .str "v"),
    ("k33", .str "v"), ("k34", .str "v"), ("k35", .str "v"), ("k36", .str "v"),
    ("k37", .str "v"), ("k38", .str "v"), ("k39", .str "v"), ("k40", .str "v")]

/-- A target catalog holding the first 23 of `refCatalog40`'s keys
(17 keys missing), hitting the `23 / 40` floating-point boundary. -/
def targetCatalog23 : Tree :=
  .node [("k01", .str "w"), ("k02", .str "w"), ("k03", .str "w"), ("k04", .str "w"),
    ("k05", .str "w"), ("k06", .str "w"), ("k07", .str "w"), ("k08", .str "w"),
    ("k09", .str "w"), ("k10", .str "w"), ("k11", .str "w"), ("k12", .str "w"),
    ("k13", .str "w"), ("k14", .str "w"), ("k15", .str "w"), ("k16", .str "w"),
    ("k17", .str "w"), ("k18", .str "w"), ("k19", .str "w"), ("k20", .str "w"),
    ("k21", .str "w"), ("k22", .str "w"), ("k23", .str "w")]

/-- One scan step of the global regex `/\{[^}]+\}/g` used by
`validatePlaceholderConsistency` (src/unnamed/part_001):
left-to-right, a match is `{`, a maximal non-empty run of non-`}`
characters, then `}`; scanning resumes after each match.  The second
argument is `none` outside a candidate and `some acc` (reversed run so
far) after an opening brace. -/
def scanTokens : List Char → Option (List Char) → List String
  | [], _ => []
  | c :: rest, none =>
      if c = '{' then scanTokens rest (some []) else scanTokens rest none
  | c :: rest, some acc =>
      if c = '}' then
        if acc.isEmpty then scanTokens rest none
        else ('{' :: (acc.reverse ++ ['}'])).asString :: scanTokens rest none
      else scanTokens rest (some (c :: acc))

/-- `text.match(/\{[^}]+\}/g) || []`: the placeholder tokens of a
string, in match order, duplicates included. -/
def extractTokens (s : String) : List String :=
  scanTokens s.toList none

/-- A finding pushed by `addError` during placeholder validation:
either a reference token absent from the translation or a translation
token absent from the reference. -/
inductive PErr where
  | missing (p : String)
  | extra (p : String)
deriving Repr, DecidableEq

/-- `validatePlaceholderConsistency(referenceText, translatedText, path)`
(src/unnamed/part_001): builds the two token sets, then returns
`false` as soon as the first reference token missing from the
translation is found (recording one error), otherwise `false` at the
first extra translation token, otherwise `true`.  The result pairs the
recorded errors with the returned boolean. -/
def validatePlaceholderConsistency (referenceText translatedText : String) :
    List PErr × Bool :=
  let refPlaceholders := dedupFirst (extractTokens referenceText)
  let transPlaceholders := dedupFirst (extractTokens translatedText)
  match refPlaceholders.find? (fun p => !(transPlaceholders.contains p)) with
  | some p => ([.missing p], false)
  | none =>
      match transPlaceholders.find? (fun p => !(refPlaceholders.contains p)) with
      | some p => ([.extra p], false)
      | none => ([], true)

/-- Characters allowed by the specification's identifier pattern for
placeholders: letters, digits, underscore, hyphen (`[a-zA-Z0-9_-]`,
as in `isValidPlaceholder` of src/unnamed/part_001). -/
def isIdentChar (c : Char) : Bool :=
  c.isAlpha || c.isDigit || c = '_' || c = '-'

/-- Modelled from the spec's contract for `extractTokens`: a token is
"a single-brace-delimited identifier pattern (letters, digits,
underscore, hyphen)", i.e. matches `^\{[a-zA-Z0-9_-]+\}$` (the
`isValidPlaceholder` regex of src/unnamed/part_001). -/
def isSpecToken (t : String) : Bool :=
  match t.toList with
  | '{' :: rest =>
      match rest.getLast? with
      | some '}' => rest.dropLast ≠ [] && rest.dropLast.all isIdentChar
      | _ => false
  | _ => false

/-- `escapeCSVValue(value)` (src/new-keys-csv-extractor.js) on a
string value: wrap in double quotes, doubling internal quotes, iff the
value contains a comma, double quote, LF or CR; otherwise unchanged. -/
def escapeCSVValue (s : String) : String :=
  if s.toList.contains ',' || s.toList.contains '"'
      || s.toList.contains '\n' || s.toList.contains '\r' then
    "\"" ++ ((s.toList.flatMap (fun c => if c = '"' then ['"', '"'] else [c])).asString) ++ "\""
  else s

/-- `createCSVRow(rowData)` (src/new-keys-csv-extractor.js): escape
each field and join with commas. -/
def createCSVRow (rowData : List String) : String :=
  String.intercalate "," (rowData.map escapeCSVValue)

/-- Modelled from the spec's words for RFC4180-style quoting: "fields
containing comma, quote, or newline are wrapped in quotes with
internal quotes doubled", all other fields emitted unchanged.  Newline
characters are LF and CR, the two line-break characters RFC4180's
CRLF is made of. -/
def rfc4180Escape (s : String) : String :=
  if ∃ c ∈ s.toList, c ∈ [',', '"', '\n', '\r'] then
    "\"" ++ ((s.toList.flatMap (fun c => if c = '"' then ['"', '"'] else [c])).asString) ++ "\""
  else s

/-- Pure core of `validateTranslationStructure(completeTranslations,
referenceJson)` (src/lib/translation-updater.js) when a reference
document is supplied: valid iff the two `extractAllKeys` sets agree
(no missing and no extra keys). -/
def validateTranslationStructure (completeTranslations : Tree) (referenceJson : Option Tree) :
    Bool :=
  match referenceJson with
  | none => true
  | some ref =>
      let referenceKeys := extractKeys ref
      let translationKeys := extractKeys completeTranslations
      (referenceKeys.filter (fun k => !(translationKeys.contains k))).isEmpty
        && (translationKeys.filter (fun k => !(referenceKeys.contains k))).isEmpty

/-- Observable events of one `updateCompleteTranslations` run, in
program order. -/
inductive Event where
  | loaded
  | backedUp
  | validationFailed
  | written
  | restored
deriving Repr, DecidableEq

/-- `updateCompleteTranslations(targetPath, completeTranslations,
options)` (src/lib/translation-updater.js) as an event trace plus
success flag.  Follows the code's order exactly: load the existing
file if present; if not a dry run, call `createBackup` (which copies
the file when backups are enabled and the file exists — this happens
before any validation); then, if validation is requested, run the
structure validation against the reference and throw on failure; only
then write.  The catch block restores from the backup when a backup
path was produced (`backupPath && !this.dryRun`), which succeeds only
when the backup file was actually copied. -/
def updateCompleteTranslations (dryRun backupEnabled : Bool)
    (existingTarget : Option Tree) (completeTranslations : Tree)
    (validateResult : Bool) (referenceJson : Option Tree) :
    List Event × Bool :=
  let loadEvents : List Event := if existingTarget.isSome then [.loaded] else []
  let backupMade : Bool := !dryRun && backupEnabled && existingTarget.isSome
  let backupEvents : List Event := if backupMade then [.backedUp] else []
  if validateResult && !(validateTranslationStructure completeTranslations referenceJson) then
    (loadEvents ++ backupEvents ++ [.validationFailed]
       ++ (if backupMade then [.restored] else []), false)
  else
    (loadEvents ++ backupEvents ++ (if !dryRun then [.written] else []), true)

/-! ### Basic lemmas -/

theorem mem_dedupFirstAux (l : List String) (x : String) :
    ∀ seen : List String, x ∈ dedupFirstAux l seen ↔ x ∈ l ∧ x ∉ seen := by
  induction l with
  | nil => intro seen; simp [dedupFirstAux]
  | cons y rest ih =>
      intro seen
      by_cases hy : seen.contains y = true
      · have hy' : y ∈ seen := List.elem_iff.mp hy
        rw [dedupFirstAux, if_pos hy, ih]
        constructor
        · rintro ⟨h1, h2⟩; exact ⟨List.mem_cons_of_mem _ h1, h2⟩
        · rintro ⟨h1, h2⟩
          rcases List.mem_cons.mp h1 with h1 | h1
          · exact absurd (h1 ▸ hy') h2
          · exact ⟨h1, h2⟩
      · have hy' : y ∉ seen := fun hmem => hy (List.elem_iff.mpr hmem)
        rw [dedupFirstAux, if_neg hy]
        simp only [List.mem_cons, ih]
        by_cases hxy : x = y <;> simp_all

theorem mem_dedupFirst (l : List String) (x : String) :
    x ∈ dedupFirst l ↔ x ∈ l := by
  simp [dedupFirst, mem_dedupFirstAux]

theorem mem_extractKeys (t : Tree) (k : String) :
    k ∈ extractKeys t ↔ k ∈ keyList "" t := by
  simp [extractKeys, mem_dedupFirst]

theorem blenAux_zero (fuel : ℕ) : blenAux fuel 0 = 0 := by
  cases fuel <;> simp [blenAux]

theorem blenAux_spec : ∀ fuel n : ℕ, n ≤ fuel → 1 ≤ n →
    2 ^ (blenAux fuel n - 1) ≤ n ∧ n < 2 ^ blenAux fuel n := by
  intro fuel
  induction fuel with
  | zero => intro n h1 h2; omega
  | succ fuel ih =>
      intro n hle h1
      rw [blenAux, if_neg (by omega)]
      by_cases h2 : n / 2 = 0
      · have hn1 : n = 1 := by omega
        subst hn1
        rw [h2, blenAux_zero]
        norm_num
      · have hrec := ih (n / 2) (by omega) (by omega)
        set b := blenAux fuel (n / 2) with hb
        have hb1 : 1 ≤ b := by
          rcases Nat.eq_zero_or_pos b with h0 | h0
          · rw [h0] at hrec
            simp at hrec
            omega
          · exact h0
        constructor
        · have h3 : 2 ^ (b - 1) ≤ n / 2 := hrec.1
          have hpow : 2 ^ (b + 1 - 1) = 2 ^ (b - 1) * 2 := by
            rw [Nat.add_sub_cancel]
            conv_lhs => rw [show b = (b - 1) + 1 by omega]
            rw [pow_succ]
          rw [hpow]
          omega
        · have h3 : n / 2 < 2 ^ b := hrec.2
          rw [pow_succ]
          omega

theorem blen_spec (n : ℕ) (h : 1 ≤ n) :
    2 ^ (blen n - 1) ≤ n ∧ n < 2 ^ blen n :=
  blenAux_spec n n le_rfl h

theorem rne_abs_le (n d : ℕ) (hd : 1 ≤ d) :
    |(rne n d : ℚ) - n / d| ≤ 1 / 2 := by
  have hd0 : ((d : ℚ)) ≠ 0 := by positivity
  have hdpos : (0 : ℚ) < d := by positivity
  have hmod := Nat.div_add_mod n d
  have hcast : (n : ℚ) = d * (n / d : ℕ) + (n % d : ℕ) := by
    exact_mod_cast hmod.symm
  have hval : (n : ℚ) / d = (n / d : ℕ) + (n % d : ℕ) / d := by
    rw [hcast]
    field_simp
    ring
  have hrlt : (n % d : ℕ) < d := Nat.mod_lt n (by omega)
  simp only [rne]
  by_cases h1 : 2 * (n % d) < d
  · rw [if_pos h1, hval]
    have h0 : (0 : ℚ) ≤ ((n % d : ℕ) : ℚ) / d := by positivity
    have hhalf : ((n % d : ℕ) : ℚ) / d ≤ 1 / 2 := by
      rw [div_le_div_iff hdpos (by norm_num)]
      have h2 : ((2 * (n % d) : ℕ) : ℚ) ≤ (d : ℚ) :=
        by exact_mod_cast (by omega : 2 * (n % d) ≤ d)
      push_cast at h2
      linarith
    rw [abs_le]
    constructor <;> linarith
  · rw [if_neg h1]
    have h2 : d ≤ 2 * (n % d) := by omega
    have hhalf : (1 : ℚ) / 2 ≤ ((n % d : ℕ) : ℚ) / d := by
      rw [div_le_div_iff (by norm_num) hdpos]
      have : ((d : ℕ) : ℚ) ≤ ((2 * (n % d) : ℕ) : ℚ) := by exact_mod_cast h2
      push_cast at this ⊢
      linarith
    have hub : ((n % d : ℕ) : ℚ) / d < 1 := by
      rw [div_lt_one hdpos]
      exact_mod_cast hrlt
    by_cases h3 : d < 2 * (n % d)
    · rw [if_pos h3, hval]
      push_cast
      rw [abs_le]
      constructor
      · have hhalf' : (1 : ℚ) / 2 < ((n % d : ℕ) : ℚ) / d := by
          rw [div_lt_div_iff (by norm_num) hdpos]
          have : ((d : ℕ) : ℚ) < ((2 * (n % d) : ℕ) : ℚ) := by exact_mod_cast h3
          push_cast at this ⊢
          linarith
        linarith
      · linarith
    · have heq : 2 * (n % d) = d := by omega
      have hhalf2 : ((n % d : ℕ) : ℚ) / d = 1 / 2 := by
        rw [div_eq_div_iff hd0 (by norm_num : (2:ℚ) ≠ 0)]
        have : ((2 * (n % d) : ℕ) : ℚ) = d := by exact_mod_cast heq
        push_cast at this ⊢
        linarith
      rw [if_neg h3]
      by_cases h4 : n / d % 2 = 0
      · rw [if_pos h4, hval, hhalf2]
        rw [abs_le]
        constructor <;> norm_num
      · rw [if_neg h4, hval, hhalf2]
        push_cast
        rw [abs_le]
        constructor <;> [linarith; linarith]

theorem pow_toNat_div (x : ℤ) :
    ((2 : ℚ) ^ (x.toNat)) / ((2 : ℚ) ^ ((-x).toNat)) = (2 : ℚ) ^ x := by
  rcases le_or_lt 0 x with h | h
  · rw [show (-x).toNat = 0 by omega, pow_zero, div_one,
      ← zpow_natCast, Int.toNat_of_nonneg h]
  · rw [show x.toNat = 0 by omega, pow_zero, ← zpow_natCast,
      Int.toNat_of_nonneg (by omega : (0:ℤ) ≤ -x)]
    rw [one_div, ← zpow_neg, neg_neg]

theorem fpDiv_abs_le (n d : ℕ) (hn : 1 ≤ n) (hd : 1 ≤ d) :
    |fpVal (fpDiv n d) - n / d| ≤ (n / d : ℚ) / 2 ^ 52 := by
  have hdq : (0 : ℚ) < d := by positivity
  have hnq : (0 : ℚ) < n := by positivity
  obtain ⟨hn1, hn2⟩ := blen_spec n hn
  obtain ⟨hd1, hd2⟩ := blen_spec d hd
  have hBn : 1 ≤ blen n := by
    by_contra h
    have : blen n = 0 := by omega
    rw [this] at hn2
    omega
  rw [fpDiv, fpVal]
  simp only []
  set e : ℤ :=
    if d * 2 ^ blen n ≤ n * 2 ^ blen d then (blen n : ℤ) - blen d
    else (blen n : ℤ) - blen d - 1 with he
  have he_le : e ≤ (blen n : ℤ) - blen d := by
    rw [he]; split <;> omega
  -- lower bound 2 ^ (blen n - blen d - 1) < n / d
  have hlow : (2 : ℚ) ^ ((blen n : ℤ) - blen d - 1) < (n : ℚ) / d := by
    have hna : (2 : ℚ) ^ ((blen n : ℤ) - 1) ≤ n := by
      have : ((2 ^ (blen n - 1) : ℕ) : ℚ) ≤ n := by exact_mod_cast hn1
      rwa [Nat.cast_pow, Nat.cast_ofNat, ← zpow_natCast,
        show ((blen n - 1 : ℕ) : ℤ) = (blen n : ℤ) - 1 by omega] at this
    have hda : (d : ℚ) < (2 : ℚ) ^ (blen d : ℤ) := by
      have : (d : ℚ) < ((2 ^ blen d : ℕ) : ℚ) := by exact_mod_cast hd2
      rwa [Nat.cast_pow, Nat.cast_ofNat, ← zpow_natCast] at this
    rw [lt_div_iff hdq]
    calc (2 : ℚ) ^ ((blen n : ℤ) - blen d - 1) * d
        < 2 ^ ((blen n : ℤ) - blen d - 1) * 2 ^ (blen d : ℤ) := by
          apply mul_lt_mul_of_pos_left hda (by positivity)
      _ = 2 ^ ((blen n : ℤ) - 1) := by
          rw [← zpow_add₀ (by norm_num : (2:ℚ) ≠ 0)]
          congr 1
          ring
      _ ≤ n := hna
  -- the scaled quotient and the rounding error
  set N := n * 2 ^ (52 - e).toNat with hN
  set D := d * 2 ^ (e - 52).toNat with hD
  have hD1 : 1 ≤ D := by
    rw [hD]
    exact Nat.one_le_iff_ne_zero.mpr (by positivity)
  have hDq : (0 : ℚ) < D := by
    have : (0:ℕ) < D := hD1
    exact_mod_cast this
  have hscale : (N : ℚ) / D = (n : ℚ) / d * 2 ^ ((52 : ℤ) - e) := by
    rw [hN, hD]
    push_cast
    rw [mul_div_mul_comm]
    congr 1
    rw [show ((e : ℤ) - 52) = -((52 : ℤ) - e) by ring]
    exact pow_toNat_div _
  have hrne := rne_abs_le N D hD1
  -- |m * 2^(e-52) - n/d| = |m - N/D| * 2^(e-52)
  have hz : (0 : ℚ) < (2 : ℚ) ^ (e - 52) := by positivity
  have hback : (N : ℚ) / D * 2 ^ (e - 52) = (n : ℚ) / d := by
    rw [hscale, mul_assoc, ← zpow_add₀ (by norm_num : (2:ℚ) ≠ 0)]
    norm_num
  have hkey : (rne N D : ℚ) * 2 ^ (e - 52) - (n : ℚ) / d
      = ((rne N D : ℚ) - (N : ℚ) / D) * 2 ^ (e - 52) := by
    rw [sub_mul, hback]
  rw [hkey, abs_mul, abs_of_pos hz]
  calc |(rne N D : ℚ) - (N : ℚ) / D| * 2 ^ (e - 52)
      ≤ 1 / 2 * 2 ^ (e - 52) := by
        apply mul_le_mul_of_nonneg_right hrne (le_of_lt hz)
    _ = 2 ^ (e - 53) := by
        rw [show (e - 53 : ℤ) = (e - 52) + (-1) by ring,
          zpow_add₀ (by norm_num : (2:ℚ) ≠ 0)]
        norm_num
        ring
    _ ≤ 2 ^ (((blen n : ℤ) - blen d - 1) + (-52)) := by
        apply zpow_le_zpow_right₀ (by norm_num : (1:ℚ) ≤ 2)
        omega
    _ = 2 ^ ((blen n : ℤ) - blen d - 1) * 2 ^ (-52 : ℤ) :=
        zpow_add₀ (by norm_num : (2:ℚ) ≠ 0) _ _
    _ ≤ (n : ℚ) / d * 2 ^ (-52 : ℤ) := by
        apply mul_le_mul_of_nonneg_right (le_of_lt hlow) (by positivity)
    _ = (n : ℚ) / d / 2 ^ 52 := by
        rw [show ((2:ℚ) ^ (-52 : ℤ)) = 1 / 2 ^ 52 by norm_num]
        ring

theorem floor_cast_add_half (z : ℕ) : ⌊((z : ℕ) : ℚ) + 1 / 2⌋ = (z : ℤ) := by
  rw [Int.floor_eq_iff]
  constructor
  · push_cast
    linarith
  · push_cast
    linarith

theorem fpRoundHalfUp_eq_floor (me : ℕ × ℤ) :
    (fpRoundHalfUp me : ℤ) = ⌊fpVal me + 1 / 2⌋ := by
  obtain ⟨m, e⟩ := me
  rw [fpRoundHalfUp, fpVal]
  simp only []
  by_cases h : 52 ≤ e
  · rw [if_pos h]
    have hval : (m : ℚ) * 2 ^ (e - 52) = ((m * 2 ^ (e - 52).toNat : ℕ) : ℚ) := by
      push_cast
      rw [← zpow_natCast (2:ℚ) (e - 52).toNat, Int.toNat_of_nonneg (by omega)]
    rw [hval, floor_cast_add_half]
  · rw [if_neg h]
    set s := (52 - e).toNat with hs
    have hse : (s : ℤ) = 52 - e := by omega
    have hnum : ((2 * m + 2 ^ s : ℕ) : ℤ) = 2 * m + 2 ^ s := by push_cast; ring
    have hcast : (((2 * m + 2 ^ s) / 2 ^ (s + 1) : ℕ) : ℤ)
        = ((2 * m + 2 ^ s : ℕ) : ℤ) / ((2 ^ (s + 1) : ℕ) : ℤ) := Int.ofNat_div _ _
    rw [hcast, ← Rat.floor_intCast_div_natCast]
    congr 1
    have h2s : ((2 : ℚ) ^ s) ≠ 0 := by positivity
    rw [show (m : ℚ) * 2 ^ (e - 52) = (m : ℚ) / 2 ^ s by
      rw [show (e - 52 : ℤ) = -(s : ℤ) by omega, zpow_neg, div_eq_mul_inv,
        ← zpow_natCast (2:ℚ) s]]
    push_cast
    field_simp
    ring

theorem pct64_abs_le (a b : ℕ) (hab : a ≤ b) (hb : 1 ≤ b) :
    |(pct64 a b : ℤ) - ⌊100 * (a : ℚ) / b + 1 / 2⌋| ≤ 1 := by
  have hbq : (0 : ℚ) < b := by positivity
  by_cases ha : a = 0
  · subst ha
    rw [pct64]
    norm_num
  · have ha1 : 1 ≤ a := by omega
    have haq : (0 : ℚ) < a := by positivity
    set x := (a : ℚ) / b with hx
    have hx0 : 0 < x := by positivity
    have hx1 : x ≤ 1 := by
      rw [hx, div_le_one hbq]
      exact_mod_cast hab
    have hv1 := fpDiv_abs_le a b ha1 hb
    set v1 := fpVal (fpDiv a b) with hv1def
    have hv1close : |v1 - x| ≤ x / 2 ^ 52 := hv1
    have heps : x / 2 ^ 52 ≤ 1 / 2 ^ 52 := by
      apply div_le_div_of_nonneg_right ?_ (by positivity)
      · exact hx1
    have hv1pos : 0 < v1 := by
      have h1 : v1 ≥ x - x / 2 ^ 52 := by
        have := abs_le.mp hv1close
        linarith [this.1]
      have h2 : x / 2 ^ 52 < x := by
        apply div_lt_self hx0
        norm_num
      linarith
    have hm1 : 1 ≤ (fpDiv a b).1 := by
      by_contra h
      have h0 : (fpDiv a b).1 = 0 := by omega
      rw [hv1def, fpVal, h0] at hv1pos
      simp at hv1pos
    -- the multiplication step
    set N2 := (fpDiv a b).1 * 100 * 2 ^ ((fpDiv a b).2 - 52).toNat with hN2
    set D2 := 2 ^ (52 - (fpDiv a b).2).toNat with hD2
    have hN2pos : 1 ≤ N2 := by
      rw [hN2]
      exact Nat.one_le_iff_ne_zero.mpr (by positivity)
    have hD2pos : 1 ≤ D2 := Nat.one_le_two_pow
    have hD2q : (0 : ℚ) < D2 := by
      have : (0:ℕ) < D2 := hD2pos
      exact_mod_cast this
    have hscale2 : (N2 : ℚ) / D2 = 100 * v1 := by
      rw [hN2, hD2, hv1def, fpVal]
      push_cast
      rw [mul_div_assoc]
      rw [show ((52 : ℤ) - (fpDiv a b).2) = -((fpDiv a b).2 - 52) by ring]
      rw [pow_toNat_div ((fpDiv a b).2 - 52)]
      ring
    have hv2 := fpDiv_abs_le N2 D2 hN2pos hD2pos
    set v2 := fpVal (fpDiv N2 D2) with hv2def
    rw [hscale2] at hv2
    -- total error of v2 against the exact 100 * x
    have hv1ub : v1 ≤ 2 * x := by
      have := abs_le.mp hv1close
      have h2 : x / 2 ^ 52 ≤ x := le_of_lt (div_lt_self hx0 (by norm_num))
      linarith [this.2]
    have hclose : |v2 - 100 * x| ≤ 1 / 4 := by
      have htri : |v2 - 100 * x| ≤ |v2 - 100 * v1| + |100 * v1 - 100 * x| :=
        abs_sub_le v2 (100 * v1) (100 * x)
      have h1 : |v2 - 100 * v1| ≤ 100 * v1 / 2 ^ 52 := hv2
      have h2 : |100 * v1 - 100 * x| = 100 * |v1 - x| := by
        rw [show (100 : ℚ) * v1 - 100 * x = 100 * (v1 - x) by ring, abs_mul]
        norm_num
      have h3 : 100 * |v1 - x| ≤ 100 * (x / 2 ^ 52) := by
        apply mul_le_mul_of_nonneg_left hv1close (by norm_num)
      have h4 : 100 * v1 / 2 ^ 52 ≤ 200 * x / 2 ^ 52 := by
        apply div_le_div_of_nonneg_right ?_ (by positivity)
        · linarith
      have h5 : (200 : ℚ) * x / 2 ^ 52 + 100 * (x / 2 ^ 52) ≤ 300 / 2 ^ 52 := by
        rw [div_add' _ _ _ (by positivity : ((2:ℚ) ^ 52) ≠ 0)]
        apply div_le_div_of_nonneg_right ?_ (by positivity)
        · linarith
      have h6 : (300 : ℚ) / 2 ^ 52 ≤ 1 / 4 := by norm_num
      linarith
    -- Math.round of v2, compared with round of 100 * x
    have hp : (pct64 a b : ℤ) = ⌊v2 + 1 / 2⌋ := by
      rw [pct64, if_neg ha, hv2def, ← hN2, ← hD2]
      exact fpRoundHalfUp_eq_floor _
    have hform : 100 * (a : ℚ) / b = 100 * x := by
      rw [hx]
      ring
    rw [hp, hform]
    have habs := abs_le.mp hclose
    have hup : ⌊v2 + 1 / 2⌋ ≤ ⌊100 * x + 1 / 2⌋ + 1 := by
      have h1 : v2 + 1 / 2 ≤ 100 * x + 1 / 2 + 1 := by linarith
      calc ⌊v2 + 1 / 2⌋ ≤ ⌊100 * x + 1 / 2 + 1⌋ := Int.floor_le_floor h1
        _ = ⌊100 * x + 1 / 2⌋ + 1 := by
            rw [show (100 * x + 1 / 2 + 1 : ℚ) = (100 * x + 1 / 2) + (1 : ℤ) by
              push_cast; ring]
            exact Int.floor_add_int _ _
    have hdown : ⌊100 * x + 1 / 2⌋ - 1 ≤ ⌊v2 + 1 / 2⌋ := by
      have h1 : 100 * x + 1 / 2 - 1 ≤ v2 + 1 / 2 := by linarith
      calc ⌊100 * x + 1 / 2⌋ - 1
          = ⌊100 * x + 1 / 2 + (-1 : ℤ)⌋ := by
            rw [Int.floor_add_int]
            omega
        _ ≤ ⌊v2 + 1 / 2⌋ := Int.floor_le_floor (by push_cast; linarith)
    rw [abs_le]
    omega

/-! ### Claim C1 (code bug): the incoming-wins policy is inverted

`updateTranslations` with `overwriteExisting = true` computes
`deepMerge(originalContent, newTranslations)`, but `deepMerge` gives
its FIRST argument priority for primitive leaves ("For primitive
values, only add if not already present in target"), so existing
leaves are in fact never overwritten — the opposite of what the
option name `overwriteExisting` and the specification promise. -/

/-- **C1.**  Evaluation of the code at the failing input: merging base
`{"a":"old"}` with incoming `{"a":"new","b":"added"}` under
`overwriteExisting = true` yields `{"a":"old","b":"added"}` — the
incoming leaf `"a"` does NOT win — and not the `{"a":"new","b":"added"}`
the claim requires. -/
theorem overwrite_policy_keeps_existing_leaf :
    updateMerge (Tree.node [("a", .str "old")])
        (Tree.node [("a", .str "new"), ("b", .str "added")]) true
      = Tree.node [("a", .str "old"), ("b", .str "added")] ∧
    updateMerge (Tree.node [("a", .str "old")])
        (Tree.node [("a", .str "new"), ("b", .str "added")]) true
      ≠ Tree.node [("a", .str "new"), ("b", .str "added")] := by
  refine ⟨rfl, fun h => ?_⟩
  simp [updateMerge, deepMerge, mergeEntries, lookupVal, setKey, containsKey] at h

/-! ### Claim C2 (code bug): the base-wins policy is inverted -/

/-- **C2.**  Evaluation of the code at the failing input: merging base
`{"a":"old"}` with incoming `{"a":"new","b":"added"}` under
`overwriteExisting = false` (`deepMerge(newTranslations,
originalContent)`) yields `{"a":"new","b":"added"}`: the existing base
leaf `"a"` IS overwritten, contradicting base-wins preservation. -/
theorem base_wins_policy_overwrites_existing_leaf :
    updateMerge (Tree.node [("a", .str "old")])
        (Tree.node [("a", .str "new"), ("b", .str "added")]) false
      = Tree.node [("a", .str "new"), ("b", .str "added")] ∧
    updateMerge (Tree.node [("a", .str "old")])
        (Tree.node [("a", .str "new"), ("b", .str "added")]) false
      ≠ Tree.node [("a", .str "old"), ("b", .str "added")] := by
  refine ⟨rfl, fun h => ?_⟩
  simp [updateMerge, deepMerge, mergeEntries, lookupVal, setKey, containsKey] at h

/-! ### Claim C3 (corrected): backup happens before pre-write validation -/

/-- **C3 counterexample.**  A concrete run of
`updateCompleteTranslations` (backups enabled, not a dry run, target
file present, proposed content `{}` failing structure validation
against reference `{"a":"x"}`): the trace shows the backup IS created,
before the validation failure — refuting "for every input whose
proposed content fails pre-write structure validation, no backup is
created". -/
theorem updateComplete_backs_up_invalid_translation :
    updateCompleteTranslations false true (some (.node [("a", .str "x")]))
        (.node []) true (some (.node [("a", .str "x")]))
      = ([.loaded, .backedUp, .validationFailed, .restored], false) ∧
    Event.backedUp ∈ (updateCompleteTranslations false true
        (some (.node [("a", .str "x")])) (.node []) true
        (some (.node [("a", .str "x")]))).1 := by
  exact ⟨rfl, by decide⟩

/-- **C3 amended.**  In `updateCompleteTranslations`, the backup
snapshot is created BEFORE pre-write validation; when the proposed
content fails pre-write structure validation the run fails, the write
step never happens, and when a backup was made (backups enabled, not
a dry run, target file present) the trace contains the backup, then
the validation failure, then the restore, in that order. -/
theorem updateComplete_validation_failure_ordering
    (dryRun backupEnabled : Bool) (orig : Option Tree) (ct ref : Tree)
    (hfail : validateTranslationStructure ct (some ref) = false) :
    (updateCompleteTranslations dryRun backupEnabled orig ct true (some ref)).2 = false ∧
    Event.written ∉ (updateCompleteTranslations dryRun backupEnabled orig ct true (some ref)).1 ∧
    ((!dryRun && backupEnabled && orig.isSome) = true →
      List.Sublist [Event.backedUp, Event.validationFailed, Event.restored]
        (updateCompleteTranslations dryRun backupEnabled orig ct true (some ref)).1) := by
  unfold updateCompleteTranslations
  rw [hfail]
  cases dryRun <;> cases backupEnabled <;> cases orig <;> simp

/-- **C3 witness.**  The amended theorem applied at a concrete input. -/
theorem updateComplete_validation_failure_ordering_witness :
    validateTranslationStructure (.node []) (some (.node [("a", .str "x")])) = false ∧
    ((updateCompleteTranslations false true (some (.node [("b", .str "y")]))
        (.node []) true (some (.node [("a", .str "x")]))).2 = false ∧
      Event.written ∉ (updateCompleteTranslations false true (some (.node [("b", .str "y")]))
        (.node []) true (some (.node [("a", .str "x")]))).1 ∧
      ((!false && true && (some (Tree.node [("b", .str "y")])).isSome) = true →
        List.Sublist [Event.backedUp, Event.validationFailed, Event.restored]
          (updateCompleteTranslations false true (some (.node [("b", .str "y")]))
            (.node []) true (some (.node [("a", .str "x")]))).1)) :=
  ⟨by decide,
   updateComplete_validation_failure_ordering false true
     (some (.node [("b", .str "y")])) (.node []) (.node [("a", .str "x")]) (by decide)⟩

/-! ### Claim C4 (corrected): completion percentage and the empty reference -/

/-- **C4 counterexample.**  Two refutations of the claim.  With an
empty reference catalog the code computes `Math.round((0 / 0) * 100)`,
i.e. `NaN` (modelled `none`), not the claimed `100`.  And the claimed
exact formula also fails at floating-point boundary inputs: with 40
reference keys and 17 missing, the double `(23 / 40) * 100` is
`57.49999999999999`, so the program reports `57` while the exact
`round(100 * (40 - 17) / 40)` is `58`. -/
theorem compare_empty_reference_percentage_nan :
    ((compare (.node []) (.node [])).completionPercentage = none ∧
      (compare (.node []) (.node [])).completionPercentage ≠ some 100) ∧
    ((compare refCatalog40 targetCatalog23).totalReferenceKeys = 40 ∧
      (compare refCatalog40 targetCatalog23).missingCount = 17 ∧
      (compare refCatalog40 targetCatalog23).completionPercentage = some 57 ∧
      (57 : ℤ) ≠ ⌊(100 * ((40 : ℚ) - 17)) / 40 + 1 / 2⌋) := by
  refine ⟨⟨by decide, by decide⟩, by decide, by decide, by decide, ?_⟩
  have h : (100 * ((40 : ℚ) - 17)) / 40 + 1 / 2 = ((58 : ℤ) : ℚ) := by norm_num
  rw [h, Int.floor_intCast]
  decide

/-- **C4 amended.**  When the reference key set is empty the division
`0 / 0` makes `completionPercentage` `NaN` (modelled `none`), not
`100`.  When it is non-empty, `completionPercentage` is `Math.round`
of the DOUBLE-PRECISION evaluation of
`((refCount - missingCount) / refCount) * 100`; this always lies
within `1` of the exact `round(100 * (refCount - missingCount) /
refCount)` the claim states, but can genuinely differ from it at
floating-point boundary inputs (40 keys, 17 missing: 57, not 58). -/
theorem compare_completion_formula (reference target : Tree) :
    ((compare reference target).totalReferenceKeys = 0 →
      (compare reference target).completionPercentage = none) ∧
    ((compare reference target).totalReferenceKeys ≠ 0 →
      ∃ p : ℕ, (compare reference target).completionPercentage = some p ∧
        |(p : ℤ) - ⌊(100 * (((compare reference target).totalReferenceKeys : ℚ)
              - (compare reference target).missingCount))
            / ((compare reference target).totalReferenceKeys : ℚ) + 1 / 2⌋| ≤ 1) := by
  simp only [compare]
  constructor
  · intro h
    simp [h]
  · intro h
    rw [if_neg h]
    refine ⟨_, rfl, ?_⟩
    have hle : ((extractKeys reference).filter
        (fun k => !((extractKeys target).contains k))).length
        ≤ (extractKeys reference).length := List.length_filter_le _ _
    have hbound := pct64_abs_le
      ((extractKeys reference).length
        - ((extractKeys reference).filter
            (fun k => !((extractKeys target).contains k))).length)
      (extractKeys reference).length (Nat.sub_le _ _)
      (Nat.one_le_iff_ne_zero.mpr h)
    rw [show (((extractKeys reference).length : ℚ)
          - ((extractKeys reference).filter
              (fun k => !((extractKeys target).contains k))).length)
        = (((extractKeys reference).length
            - ((extractKeys reference).filter
                (fun k => !((extractKeys target).contains k))).length : ℕ) : ℚ)
      from (Nat.cast_sub hle).symm]
    exact hbound

/-- **C4 witness.**  The amended theorem applied at the concrete pair
`refCatalog40` / `targetCatalog23` (40 reference keys, 17 missing):
the percentage is a defined value, `57`, within 1 of the exact 58. -/
theorem compare_completion_formula_witness :
    ((compare refCatalog40 targetCatalog23).totalReferenceKeys ≠ 0 →
      ∃ p : ℕ, (compare refCatalog40 targetCatalog23).completionPercentage = some p ∧
        |(p : ℤ) - ⌊(100 * (((compare refCatalog40 targetCatalog23).totalReferenceKeys : ℚ)
              - (compare refCatalog40 targetCatalog23).missingCount))
            / ((compare refCatalog40 targetCatalog23).totalReferenceKeys : ℚ) + 1 / 2⌋| ≤ 1) ∧
    (compare refCatalog40 targetCatalog23).completionPercentage = some 57 :=
  ⟨(compare_completion_formula refCatalog40 targetCatalog23).2,
   by decide⟩

/-! ### Claim C5 (corrected): the placeholder check stops at the first
discrepancy -/

/-- **C5 counterexample.**  Scenario E: reference `"Hi {user}"`,
target `"Hola {usuario}"`.  The code records ONLY the first missing
token and returns `false` immediately; the extra token `{usuario}` is
never reported, refuting "reports the full set ... (missing) and the
full set ... (extra)". -/
theorem placeholder_scenarioE_reports_only_first_missing :
    validatePlaceholderConsistency "Hi {user}" "Hola {usuario}"
      = ([.missing "{user}"], false) ∧
    PErr.extra "{usuario}" ∉
      (validatePlaceholderConsistency "Hi {user}" "Hola {usuario}").1 :=
  ⟨rfl, by decide⟩

/-- **C5 amended.**  `validatePlaceholderConsistency` returns `true`
exactly when the reference and target token sets coincide (so the
boolean verdict is as claimed: `ok = false` whenever a missing or
extra token exists), but it reports at most ONE finding — the first
missing token if any, otherwise the first extra token — never the
full sets. -/
theorem placeholder_check_first_error_only (refText transText : String) :
    ((validatePlaceholderConsistency refText transText).2 = true ↔
      ∀ p : String, p ∈ extractTokens refText ↔ p ∈ extractTokens transText) ∧
    (validatePlaceholderConsistency refText transText).1.length ≤ 1 := by
  unfold validatePlaceholderConsistency
  rcases hfind : (dedupFirst (extractTokens refText)).find?
      (fun p => !((dedupFirst (extractTokens transText)).contains p)) with _ | p
  · rcases hfind2 : (dedupFirst (extractTokens transText)).find?
        (fun p => !((dedupFirst (extractTokens refText)).contains p)) with _ | q
    · simp only [hfind, hfind2, List.length_nil]
      refine ⟨⟨fun _ p => ?_, fun _ => trivial⟩, by omega⟩
      have href := List.find?_eq_none.mp hfind
      have htrans := List.find?_eq_none.mp hfind2
      constructor
      · intro hp
        have := href p ((mem_dedupFirst _ _).mpr hp)
        simp only [Bool.not_eq_true', Bool.not_eq_false] at this
        exact (mem_dedupFirst _ _).mp (List.elem_iff.mp this)
      · intro hp
        have := htrans p ((mem_dedupFirst _ _).mpr hp)
        simp only [Bool.not_eq_true', Bool.not_eq_false] at this
        exact (mem_dedupFirst _ _).mp (List.elem_iff.mp this)
    · simp only [hfind, hfind2, List.length_singleton]
      refine ⟨⟨fun h => absurd h (by simp), fun hall => ?_⟩, by omega⟩
      exfalso
      have hq1 : q ∈ extractTokens transText :=
        (mem_dedupFirst _ _).mp (List.mem_of_find?_eq_some hfind2)
      have hq2 := List.find?_some hfind2
      simp only [Bool.not_eq_true'] at hq2
      have h3 : q ∈ dedupFirst (extractTokens refText) :=
        (mem_dedupFirst _ _).mpr ((hall q).mpr hq1)
      simp [List.elem_iff.mpr h3] at hq2
      exact hq2 h3
  · simp only [hfind, List.length_singleton]
    refine ⟨⟨fun h => absurd h (by simp), fun hall => ?_⟩, by omega⟩
    exfalso
    have hp1 : p ∈ extractTokens refText :=
      (mem_dedupFirst _ _).mp (List.mem_of_find?_eq_some hfind)
    have hp2 := List.find?_some hfind
    simp only [Bool.not_eq_true'] at hp2
    have h3 : p ∈ dedupFirst (extractTokens transText) :=
      (mem_dedupFirst _ _).mpr ((hall p).mp hp1)
    simp [List.elem_iff.mpr h3] at hp2
    exact hp2 h3

/-- **C5 witness.**  The amended theorem applied at Scenario E:
at most one finding is recorded. -/
theorem placeholder_check_first_error_only_witness :
    (validatePlaceholderConsistency "Hi {user}" "Hola {usuario}").1.length ≤ 1 :=
  (placeholder_check_first_error_only "Hi {user}" "Hola {usuario}").2

/-! ### Claim C6 (corrected): token extraction is not identifier-restricted -/

/-- The tokens produced by `scanTokens` are exactly brace-delimited:
an opening brace, a non-empty run of non-`}` characters, a closing
brace — with no restriction to identifier characters. -/
theorem scanTokens_shape (cs : List Char) :
    ∀ st : Option (List Char), (∀ acc, st = some acc → ∀ c ∈ acc, c ≠ '}') →
      ∀ t ∈ scanTokens cs st,
        ∃ mid : List Char, mid ≠ [] ∧ (∀ c ∈ mid, c ≠ '}') ∧
          t = ('{' :: (mid ++ ['}'])).asString := by
  induction cs with
  | nil => intro st h t ht; simp [scanTokens] at ht
  | cons c rest ih =>
      intro st h t ht
      cases st with
      | none =>
          rw [scanTokens] at ht
          by_cases hc : c = '{'
          · rw [if_pos hc] at ht
            exact ih (some []) (by intro acc h' ch hch; cases h'; simp at hch) t ht
          · rw [if_neg hc] at ht
            exact ih none (by intro acc h'; cases h') t ht
      | some acc =>
          have hacc : ∀ ch ∈ acc, ch ≠ '}' := h acc rfl
          rw [scanTokens] at ht
          by_cases hc : c = '}'
          · rw [if_pos hc] at ht
            by_cases hemp : acc.isEmpty = true
            · rw [if_pos hemp] at ht
              exact ih none (by intro acc' h'; cases h') t ht
            · rw [if_neg hemp] at ht
              rcases List.mem_cons.mp ht with h1 | h1
              · refine ⟨acc.reverse, ?_, ?_, ?_⟩
                · simp only [ne_eq, List.reverse_eq_nil_iff]
                  intro hnil
                  exact hemp (by simp [hnil])
                · intro ch hch
                  exact hacc ch (List.mem_reverse.mp hch)
                · simpa using h1
              · exact ih none (by intro acc' h'; cases h') t h1
          · rw [if_neg hc] at ht
            refine ih (some (c :: acc)) ?_ t ht
            intro acc' h' ch hch
            cases h'
            rcases List.mem_cons.mp hch with rfl | hch'
            · exact hc
            · exact hacc ch hch'

/-- **C6 counterexample.**  The extraction regex is `/\{[^}]+\}/g`:
it accepts ANY non-`}` characters between the braces.  On input
`"{a b}"` the code returns the token `"{a b}"`, which is not of the
claimed `{identifier}` form (space is not a letter, digit, underscore
or hyphen) — refuting "exactly the set of substrings that are a
single-brace-delimited identifier ... and no other substrings". -/
theorem extractTokens_accepts_non_identifier :
    extractTokens "{a b}" = ["{a b}"] ∧ isSpecToken "{a b}" = false := by
  decide

/-- **C6 amended.**  Token extraction returns the non-overlapping
left-to-right matches of "`{`, one or more non-`}` characters, `}`"
(the character class is NOT restricted to identifier characters); on
the claim's example the result is exactly `{"{name}", "{count}"}`. -/
theorem extractTokens_brace_delimited :
    (∀ (s : String) (t : String), t ∈ extractTokens s →
      ∃ mid : List Char, mid ≠ [] ∧ (∀ c ∈ mid, c ≠ '}') ∧
        t = ('{' :: (mid ++ ['}'])).asString) ∧
    extractTokens "Hello {name}, {count} items" = ["{name}", "{count}"] :=
  ⟨fun s t ht => scanTokens_shape s.toList none (by intro acc h'; cases h') t ht,
   by decide⟩

/-- **C6 witness.**  The amended theorem applied to the token
`"{name}"` of the claim's example input. -/
theorem extractTokens_brace_delimited_witness :
    "{name}" ∈ extractTokens "Hello {name}, {count} items" ∧
    ∃ mid : List Char, mid ≠ [] ∧ (∀ c ∈ mid, c ≠ '}') ∧
      "{name}" = ('{' :: (mid ++ ['}'])).asString :=
  ⟨by decide,
   extractTokens_brace_delimited.1 "Hello {name}, {count} items" "{name}" (by decide)⟩

/-! ### Claim C8 (confirmed): self-diff is empty -/

/-- **C8.**  Diffing any catalog against itself yields no differences:
both `missingKeys` and `extraKeys` are empty. -/
theorem compare_self_no_diff (A : Tree) :
    (compare A A).missingKeys = [] ∧ (compare A A).extraKeys = [] := by
  constructor <;>
    · simp only [compare]
      rw [List.filter_eq_nil_iff]
      intro a ha
      simp [ha]

/-! ### Claim C9 (confirmed): CSV field escaping is RFC4180-style -/

/-- **C9.**  `escapeCSVValue` agrees with the specification's
RFC4180-style quoting on every field: a field containing a comma,
double quote, or newline character (LF or CR) is wrapped in double
quotes with internal double quotes doubled, any other field is
emitted unchanged. -/
theorem escapeCSVValue_is_rfc4180 (s : String) :
    escapeCSVValue s = rfc4180Escape s := by
  unfold escapeCSVValue rfc4180Escape
  have hiff : (s.toList.contains ',' || s.toList.contains '"'
      || s.toList.contains '\n' || s.toList.contains '\r') = true
      ↔ ∃ c ∈ s.toList, c ∈ [',', '"', '\n', '\r'] := by
    simp only [Bool.or_eq_true, List.elem_iff, List.mem_cons,
      List.not_mem_nil, or_false]
    constructor
    · rintro (((h | h) | h) | h)
      · exact ⟨',', h, Or.inl rfl⟩
      · exact ⟨'"', h, Or.inr (Or.inl rfl)⟩
      · exact ⟨'\n', h, Or.inr (Or.inr (Or.inl rfl))⟩
      · exact ⟨'\r', h, Or.inr (Or.inr (Or.inr rfl))⟩
    · rintro ⟨c, hc, (rfl | rfl | rfl | rfl)⟩
      · exact Or.inl (Or.inl (Or.inl hc))
      · exact Or.inl (Or.inl (Or.inr hc))
      · exact Or.inl (Or.inr hc)
      · exact Or.inr hc
  by_cases h : ∃ c ∈ s.toList, c ∈ [',', '"', '\n', '\r']
  · rw [if_pos (hiff.mpr h), if_pos h]
  · rw [if_neg (fun hb => h (hiff.mp hb)), if_neg h]

/-! ### Association-list lemmas for the merge proofs -/

theorem mergeEntries_nil (acc : List (String × Tree)) : mergeEntries acc [] = acc := rfl

theorem mergeEntries_cons_str (acc : List (String × Tree)) (k : String) (s : String)
    (rest : List (String × Tree)) :
    mergeEntries acc ((k, .str s) :: rest)
      = mergeEntries (if containsKey acc k then acc else acc ++ [(k, .str s)]) rest := rfl

theorem mergeEntries_cons_other (acc : List (String × Tree)) (k : String) (n : Nat)
    (rest : List (String × Tree)) :
    mergeEntries acc ((k, .other n) :: rest)
      = mergeEntries (if containsKey acc k then acc else acc ++ [(k, .other n)]) rest := rfl

theorem mergeEntries_cons_node (acc : List (String × Tree)) (k : String)
    (sv rest : List (String × Tree)) :
    mergeEntries acc ((k, .node sv) :: rest)
      = mergeEntries (match lookupVal acc k with
          | some (.node tv) => setKey acc k (deepMerge (.node tv) (.node sv))
          | _ => setKey acc k (.node sv)) rest := rfl

theorem lookupVal_setKey_self (es : List (String × Tree)) (k : String) (v : Tree) :
    lookupVal (setKey es k v) k = some v := by
  induction es with
  | nil => simp [setKey, lookupVal]
  | cons e rest ih =>
      obtain ⟨k', v'⟩ := e
      by_cases h : k' = k
      · simp [setKey, h, lookupVal]
      · simp [setKey, h, lookupVal, ih]

theorem containsKey_mem (es : List (String × Tree)) (k : String) :
    containsKey es k = true ↔ k ∈ es.map Prod.fst := by
  simp [containsKey, List.any_eq_true, List.mem_map]

theorem map_fst_setKey (es : List (String × Tree)) (k : String) (v : Tree) :
    (setKey es k v).map Prod.fst
      = if containsKey es k then es.map Prod.fst else es.map Prod.fst ++ [k] := by
  induction es with
  | nil => simp [setKey, containsKey]
  | cons e rest ih =>
      obtain ⟨k', v'⟩ := e
      by_cases hk : k' = k
      · subst hk
        simp [setKey, containsKey]
      · rw [setKey, if_neg hk]
        have hcons : containsKey ((k', v') :: rest) k = containsKey rest k := by
          simp [containsKey, hk]
        by_cases hc : containsKey rest k
        · simp [hcons, hc, ih]
        · simp [hcons, hc, ih]

theorem lookupVal_setKey_ne (es : List (String × Tree)) (k k' : String) (v : Tree)
    (h : k' ≠ k) :
    lookupVal (setKey es k v) k' = lookupVal es k' := by
  have hne : ¬ k = k' := fun hh => h hh.symm
  induction es with
  | nil => simp [setKey, lookupVal, hne]
  | cons e rest ih =>
      obtain ⟨k'', v''⟩ := e
      by_cases hk : k'' = k
      · subst hk
        rw [setKey, if_pos rfl, lookupVal, if_neg hne, lookupVal, if_neg hne]
      · rw [setKey, if_neg hk, lookupVal, lookupVal]
        by_cases hk' : k'' = k'
        · rw [if_pos hk', if_pos hk']
        · rw [if_neg hk', if_neg hk', ih]

theorem setKey_eq_of_lookupVal (es : List (String × Tree)) (k : String) (v : Tree)
    (h : lookupVal es k = some v) : setKey es k v = es := by
  induction es with
  | nil => simp [lookupVal] at h
  | cons e rest ih =>
      obtain ⟨k', v'⟩ := e
      by_cases hk : k' = k
      · rw [lookupVal, if_pos hk] at h
        obtain rfl := Option.some.inj h
        simp [setKey, hk]
      · rw [lookupVal, if_neg hk] at h
        simp [setKey, hk, ih h]

theorem containsKey_of_lookupVal (es : List (String × Tree)) (k : String) (v : Tree)
    (h : lookupVal es k = some v) : containsKey es k = true := by
  induction es with
  | nil => simp [lookupVal] at h
  | cons e rest ih =>
      obtain ⟨k', v'⟩ := e
      by_cases hk : k' = k
      · simp [containsKey, hk]
      · rw [lookupVal, if_neg hk] at h
        simp [containsKey] at ih ⊢
        exact Or.inr (ih h)

theorem lookupVal_eq_none_of_not_containsKey (es : List (String × Tree)) (k : String)
    (h : containsKey es k = false) : lookupVal es k = none := by
  induction es with
  | nil => simp [lookupVal]
  | cons e rest ih =>
      obtain ⟨k', v'⟩ := e
      simp only [containsKey, List.any_cons, Bool.or_eq_false_iff] at h
      rw [lookupVal, if_neg (by simpa using h.1)]
      exact ih (by simpa [containsKey] using h.2)

theorem setKey_eq_append_of_not_containsKey (es : List (String × Tree)) (k : String) (v : Tree)
    (h : containsKey es k = false) : setKey es k v = es ++ [(k, v)] := by
  induction es with
  | nil => simp [setKey]
  | cons e rest ih =>
      obtain ⟨k', v'⟩ := e
      simp only [containsKey, List.any_cons, Bool.or_eq_false_iff] at h
      rw [setKey, if_neg (by simpa using h.1)]
      simp [ih (by simpa [containsKey] using h.2)]

theorem containsKey_setKey_self (es : List (String × Tree)) (k : String) (v : Tree) :
    containsKey (setKey es k v) k = true :=
  containsKey_of_lookupVal _ _ _ (lookupVal_setKey_self es k v)

theorem containsKey_append (es l : List (String × Tree)) (k : String) :
    containsKey (es ++ l) k = (containsKey es k || containsKey l k) := by
  simp [containsKey, List.any_append]

theorem containsKey_setKey_mono (es : List (String × Tree)) (k k' : String) (v : Tree)
    (h : containsKey es k = true) : containsKey (setKey es k' v) k = true := by
  rw [containsKey_mem] at h ⊢
  rw [map_fst_setKey]
  by_cases hc : containsKey es k'
  · simpa [hc] using h
  · simp only [hc, if_neg, Bool.false_eq_true, if_false, List.mem_append]
    exact Or.inl h

theorem containsKey_mergeEntries_mono (s : List (String × Tree)) :
    ∀ (acc : List (String × Tree)) (k : String), containsKey acc k = true →
      containsKey (mergeEntries acc s) k = true := by
  induction s with
  | nil => intro acc k h; simpa [mergeEntries_nil] using h
  | cons e rest ih =>
      obtain ⟨k', v⟩ := e
      intro acc k h
      cases v with
      | str s' =>
          rw [mergeEntries_cons_str]
          apply ih
          by_cases hc : containsKey acc k'
          · simpa [hc] using h
          · simp [hc, containsKey_append, h]
      | other n =>
          rw [mergeEntries_cons_other]
          apply ih
          by_cases hc : containsKey acc k'
          · simpa [hc] using h
          · simp [hc, containsKey_append, h]
      | node sv =>
          rw [mergeEntries_cons_node]
          apply ih
          rcases hlv : lookupVal acc k' with _ | w
          · simpa using containsKey_setKey_mono acc k k' _ h
          · cases w <;> simpa using containsKey_setKey_mono acc k k' _ h

theorem lookupVal_append_ne (es : List (String × Tree)) (k k' : String) (v : Tree)
    (h : k' ≠ k) : lookupVal (es ++ [(k', v)]) k = lookupVal es k := by
  induction es with
  | nil => simp [lookupVal, h]
  | cons e rest ih =>
      obtain ⟨k'', v''⟩ := e
      by_cases hk : k'' = k
      · simp [lookupVal, hk]
      · simp [lookupVal, hk, ih]

theorem lookupVal_mergeEntries_of_not_mem (s : List (String × Tree)) :
    ∀ (acc : List (String × Tree)) (k : String), k ∉ s.map Prod.fst →
      lookupVal (mergeEntries acc s) k = lookupVal acc k := by
  induction s with
  | nil => intro acc k _; rfl
  | cons e rest ih =>
      obtain ⟨k', v⟩ := e
      intro acc k hk
      simp only [List.map_cons, List.mem_cons] at hk
      push_neg at hk
      obtain ⟨hne, hrest⟩ := hk
      have hstep : ∀ acc' : List (String × Tree),
          lookupVal (mergeEntries acc' rest) k = lookupVal acc' k :=
        fun acc' => ih acc' k hrest
      cases v with
      | str s' =>
          rw [mergeEntries_cons_str, hstep]
          by_cases hc : containsKey acc k'
          · simp [hc]
          · simp [hc, lookupVal_append_ne _ _ _ _ (fun hh => hne hh.symm)]
      | other n =>
          rw [mergeEntries_cons_other, hstep]
          by_cases hc : containsKey acc k'
          · simp [hc]
          · simp [hc, lookupVal_append_ne _ _ _ _ (fun hh => hne hh.symm)]
      | node sv =>
          rw [mergeEntries_cons_node, hstep]
          rcases hlv : lookupVal acc k' with _ | w
          · simpa using lookupVal_setKey_ne acc k' k _ hne
          · cases w <;> simpa using lookupVal_setKey_ne acc k' k _ hne

/-! ### Well-formedness and self-merge lemmas -/

theorem wellFormedT_node_iff (es : List (String × Tree)) :
    wellFormedT (.node es) = true ↔ (es.map Prod.fst).Nodup ∧ wfEntries es = true := by
  simp [wellFormedT, Bool.and_eq_true, decide_eq_true_iff]

theorem wfEntries_mem (es : List (String × Tree)) (h : wfEntries es = true) :
    ∀ kv ∈ es, wellFormedT kv.2 = true := by
  induction es with
  | nil => intro kv hkv; simp at hkv
  | cons e rest ih =>
      obtain ⟨k, v⟩ := e
      rw [wfEntries, Bool.and_eq_true] at h
      intro kv hkv
      rcases List.mem_cons.mp hkv with rfl | hkv
      · exact h.1
      · exact ih h.2 kv hkv

theorem nodup_lookupVal (es : List (String × Tree))
    (h : (es.map Prod.fst).Nodup) : ∀ kv ∈ es, lookupVal es kv.1 = some kv.2 := by
  induction es with
  | nil => intro kv hkv; simp at hkv
  | cons e rest ih =>
      obtain ⟨k', v'⟩ := e
      rw [List.map_cons, List.nodup_cons] at h
      intro kv hkv
      rcases List.mem_cons.mp hkv with rfl | hkv
      · simp [lookupVal]
      · have hne : k' ≠ kv.1 := by
          intro hh
          apply h.1
          rw [hh]
          exact List.mem_map.mpr ⟨kv, hkv, rfl⟩
        rw [lookupVal, if_neg hne]
        exact ih h.2 kv hkv

theorem sizeOf_mem_entries (es : List (String × Tree)) :
    ∀ kv ∈ es, sizeOf kv.2 < sizeOf es := by
  induction es with
  | nil => intro kv hkv; simp at hkv
  | cons e rest ih =>
      obtain ⟨k, v⟩ := e
      intro kv hkv
      rcases List.mem_cons.mp hkv with rfl | hkv
      · simp only [List.cons.sizeOf_spec, Prod.mk.sizeOf_spec]
        omega
      · have := ih kv hkv
        simp only [List.cons.sizeOf_spec, Prod.mk.sizeOf_spec]
        omega

theorem mergeEntries_fix (es : List (String × Tree)) :
    ∀ rest : List (String × Tree),
      (∀ kv ∈ rest, lookupVal es kv.1 = some kv.2) →
      (∀ kv ∈ rest, deepMerge kv.2 kv.2 = kv.2) →
      mergeEntries es rest = es := by
  intro rest
  induction rest with
  | nil => intro _ _; rfl
  | cons e rest ih =>
      obtain ⟨k, v⟩ := e
      intro h1 h2
      have hl : lookupVal es k = some v := h1 (k, v) (List.mem_cons_self _ _)
      have hm : deepMerge v v = v := h2 (k, v) (List.mem_cons_self _ _)
      have h1' := fun kv hkv => h1 kv (List.mem_cons_of_mem _ hkv)
      have h2' := fun kv hkv => h2 kv (List.mem_cons_of_mem _ hkv)
      cases v with
      | str s' =>
          rw [mergeEntries_cons_str, if_pos (containsKey_of_lookupVal _ _ _ hl)]
          exact ih h1' h2'
      | other m =>
          rw [mergeEntries_cons_other, if_pos (containsKey_of_lookupVal _ _ _ hl)]
          exact ih h1' h2'
      | node sv =>
          rw [mergeEntries_cons_node]
          simp only [hl]
          rw [hm, setKey_eq_of_lookupVal _ _ _ hl]
          exact ih h1' h2'

theorem deepMerge_self_aux : ∀ n : ℕ, ∀ t : Tree, sizeOf t < n →
    wellFormedT t = true → deepMerge t t = t := by
  intro n
  induction n with
  | zero => intro t ht; omega
  | succ n ih =>
      intro t ht hwf
      cases t with
      | str s => rfl
      | other m => rfl
      | node es =>
          obtain ⟨hnd, hwfe⟩ := (wellFormedT_node_iff es).mp hwf
          show Tree.node (mergeEntries es es) = Tree.node es
          congr 1
          apply mergeEntries_fix
          · exact nodup_lookupVal es hnd
          · intro kv hkv
            apply ih
            · have h1 : sizeOf kv.2 < sizeOf es := sizeOf_mem_entries es kv hkv
              have h2 : sizeOf es < sizeOf (Tree.node es) := by
                simp only [Tree.node.sizeOf_spec]
                omega
              omega
            · exact wfEntries_mem es hwfe kv hkv

theorem deepMerge_self (t : Tree) (h : wellFormedT t = true) : deepMerge t t = t :=
  deepMerge_self_aux (sizeOf t + 1) t (by omega) h

theorem mergeEntries_idem_aux : ∀ n : ℕ, ∀ s : List (String × Tree), sizeOf s < n →
    wellFormedT (.node s) = true →
    ∀ t, mergeEntries (mergeEntries t s) s = mergeEntries t s := by
  intro n
  induction n with
  | zero => intro s hs; omega
  | succ n ih =>
      intro s hs hwf t
      cases s with
      | nil => rfl
      | cons e rest =>
          obtain ⟨k, v⟩ := e
          obtain ⟨hnd, hwfe⟩ := (wellFormedT_node_iff _).mp hwf
          rw [List.map_cons, List.nodup_cons] at hnd
          have hknotin : k ∉ rest.map Prod.fst := hnd.1
          have hndrest : (rest.map Prod.fst).Nodup := hnd.2
          rw [wfEntries, Bool.and_eq_true] at hwfe
          have hwfv : wellFormedT v = true := hwfe.1
          have hwfrest : wellFormedT (.node rest) = true :=
            (wellFormedT_node_iff _).mpr ⟨hndrest, hwfe.2⟩
          have hszrest : sizeOf rest < n := by
            simp only [List.cons.sizeOf_spec] at hs
            omega
          cases v with
          | str s' =>
              rw [mergeEntries_cons_str]
              have hc1 : containsKey (if containsKey t k then t
                  else t ++ [(k, Tree.str s')]) k = true := by
                by_cases hc : containsKey t k
                · rw [if_pos hc]; exact hc
                · rw [if_neg hc, containsKey_append]
                  have hone : containsKey [(k, Tree.str s')] k = true := by
                    simp [containsKey]
                  rw [hone, Bool.or_true]
              rw [mergeEntries_cons_str,
                if_pos (containsKey_mergeEntries_mono rest _ k hc1)]
              exact ih rest hszrest hwfrest _
          | other m =>
              rw [mergeEntries_cons_other]
              have hc1 : containsKey (if containsKey t k then t
                  else t ++ [(k, Tree.other m)]) k = true := by
                by_cases hc : containsKey t k
                · rw [if_pos hc]; exact hc
                · rw [if_neg hc, containsKey_append]
                  have hone : containsKey [(k, Tree.other m)] k = true := by
                    simp [containsKey]
                  rw [hone, Bool.or_true]
              rw [mergeEntries_cons_other,
                if_pos (containsKey_mergeEntries_mono rest _ k hc1)]
              exact ih rest hszrest hwfrest _
          | node sv =>
              have hszsv : sizeOf sv < n := by
                simp only [List.cons.sizeOf_spec, Prod.mk.sizeOf_spec,
                  Tree.node.sizeOf_spec] at hs
                omega
              simp only [mergeEntries_cons_node]
              rcases hlv : lookupVal t k with _ | w
              · simp only [hlv]
                have hl1 : lookupVal (setKey t k (Tree.node sv)) k
                    = some (Tree.node sv) := lookupVal_setKey_self t k _
                have hlM : lookupVal (mergeEntries (setKey t k (Tree.node sv)) rest) k
                    = some (Tree.node sv) := by
                  rw [lookupVal_mergeEntries_of_not_mem rest _ k hknotin, hl1]
                simp only [hlM]
                rw [show deepMerge (Tree.node sv) (Tree.node sv) = Tree.node sv from
                    deepMerge_self _ hwfv]
                rw [setKey_eq_of_lookupVal _ _ _ hlM]
                exact ih rest hszrest hwfrest _
              · cases w with
                | node tv =>
                    simp only [hlv]
                    have hw1 : deepMerge (Tree.node tv) (Tree.node sv)
                        = Tree.node (mergeEntries tv sv) := rfl
                    rw [hw1]
                    have hl1 : lookupVal (setKey t k (Tree.node (mergeEntries tv sv))) k
                        = some (Tree.node (mergeEntries tv sv)) :=
                      lookupVal_setKey_self t k _
                    have hlM : lookupVal (mergeEntries
                        (setKey t k (Tree.node (mergeEntries tv sv))) rest) k
                        = some (Tree.node (mergeEntries tv sv)) := by
                      rw [lookupVal_mergeEntries_of_not_mem rest _ k hknotin, hl1]
                    simp only [hlM]
                    have hinner : deepMerge (Tree.node (mergeEntries tv sv)) (Tree.node sv)
                        = Tree.node (mergeEntries tv sv) := by
                      show Tree.node (mergeEntries (mergeEntries tv sv) sv)
                          = Tree.node (mergeEntries tv sv)
                      rw [ih sv hszsv hwfv tv]
                    rw [hinner, setKey_eq_of_lookupVal _ _ _ hlM]
                    exact ih rest hszrest hwfrest _
                | str s' =>
                    simp only [hlv]
                    have hl1 : lookupVal (setKey t k (Tree.node sv)) k
                        = some (Tree.node sv) := lookupVal_setKey_self t k _
                    have hlM : lookupVal (mergeEntries (setKey t k (Tree.node sv)) rest) k
                        = some (Tree.node sv) := by
                      rw [lookupVal_mergeEntries_of_not_mem rest _ k hknotin, hl1]
                    simp only [hlM]
                    rw [show deepMerge (Tree.node sv) (Tree.node sv) = Tree.node sv from
                        deepMerge_self _ hwfv]
                    rw [setKey_eq_of_lookupVal _ _ _ hlM]
                    exact ih rest hszrest hwfrest _
                | other m =>
                    simp only [hlv]
                    have hl1 : lookupVal (setKey t k (Tree.node sv)) k
                        = some (Tree.node sv) := lookupVal_setKey_self t k _
                    have hlM : lookupVal (mergeEntries (setKey t k (Tree.node sv)) rest) k
                        = some (Tree.node sv) := by
                      rw [lookupVal_mergeEntries_of_not_mem rest _ k hknotin, hl1]
                    simp only [hlM]
                    rw [show deepMerge (Tree.node sv) (Tree.node sv) = Tree.node sv from
                        deepMerge_self _ hwfv]
                    rw [setKey_eq_of_lookupVal _ _ _ hlM]
                    exact ih rest hszrest hwfrest _

/-! ### Claim C7 (confirmed): incoming-wins merge is idempotent in its
incoming operand -/

/-- **C7.**  For well-formed catalogs, merging the same operand again
changes nothing: `deepMerge(deepMerge(A, B), B) = deepMerge(A, B)`
(this is the `merge(merge(A, B, incoming-wins), B, incoming-wins) ==
merge(A, B, incoming-wins)` property, with `merge(base, incoming,
incoming-wins)` being the `deepMerge(base, incoming)` call of
`updateTranslations` with `overwriteExisting = true`). -/
theorem deepMerge_idempotent (A B : Tree) (h : wellFormedT B = true) :
    deepMerge (deepMerge A B) B = deepMerge A B := by
  cases A with
  | str s => cases B <;> rfl
  | other m => cases B <;> rfl
  | node ea =>
      cases B with
      | str s => rfl
      | other m => rfl
      | node eb =>
          show Tree.node (mergeEntries (mergeEntries ea eb) eb)
              = Tree.node (mergeEntries ea eb)
          rw [mergeEntries_idem_aux (sizeOf eb + 1) eb (by omega) h ea]

/-- **C7 witness.**  The idempotence theorem applied at the concrete
pair A = `{"a":"old","n":{"x":"1"}}`, B = `{"a":"new","n":{"y":"2"},
"b":"added"}`. -/
theorem deepMerge_idempotent_witness :
    wellFormedT (Tree.node [("a", .str "new"), ("n", .node [("y", .str "2")]),
        ("b", .str "added")]) = true ∧
    deepMerge (deepMerge (Tree.node [("a", .str "old"), ("n", .node [("x", .str "1")])])
        (Tree.node [("a", .str "new"), ("n", .node [("y", .str "2")]), ("b", .str "added")]))
      (Tree.node [("a", .str "new"), ("n", .node [("y", .str "2")]), ("b", .str "added")])
      = deepMerge (Tree.node [("a", .str "old"), ("n", .node [("x", .str "1")])])
        (Tree.node [("a", .str "new"), ("n", .node [("y", .str "2")]), ("b", .str "added")]) :=
  ⟨by decide,
   deepMerge_idempotent
     (Tree.node [("a", .str "old"), ("n", .node [("x", .str "1")])])
     (Tree.node [("a", .str "new"), ("n", .node [("y", .str "2")]), ("b", .str "added")])
     (by decide)⟩

/-! ### Key-path lemmas for the merge/key-set proofs -/

theorem keyListEntries_cons (pre k : String) (v : Tree) (rest : List (String × Tree)) :
    keyListEntries pre ((k, v) :: rest)
      = (joinKey pre k :: keyList (joinKey pre k) v) ++ keyListEntries pre rest := rfl

theorem keyListEntries_append (pre : String) (es l : List (String × Tree)) :
    keyListEntries pre (es ++ l) = keyListEntries pre es ++ keyListEntries pre l := by
  induction es with
  | nil => simp [keyListEntries]
  | cons e rest ih =>
      obtain ⟨k, v⟩ := e
      rw [List.cons_append, keyListEntries, keyListEntries, ih, List.append_assoc]

theorem mem_keyListEntries (pre : String) (es : List (String × Tree)) (p : String) :
    p ∈ keyListEntries pre es ↔
      ∃ kv ∈ es, p = joinKey pre kv.1 ∨ p ∈ keyList (joinKey pre kv.1) kv.2 := by
  induction es with
  | nil => simp [keyListEntries]
  | cons e rest ih =>
      obtain ⟨k, v⟩ := e
      rw [keyListEntries]
      simp only [List.mem_append, List.mem_cons, ih]
      constructor
      · rintro ((h | h) | ⟨kv, hkv, h⟩)
        · exact ⟨(k, v), Or.inl rfl, Or.inl h⟩
        · exact ⟨(k, v), Or.inl rfl, Or.inr h⟩
        · exact ⟨kv, Or.inr hkv, h⟩
      · rintro ⟨kv, hkv | hkv, h⟩
        · subst hkv
          rcases h with h | h
          · exact Or.inl (Or.inl h)
          · exact Or.inl (Or.inr h)
        · exact Or.inr ⟨kv, hkv, h⟩

theorem lookupVal_mem (es : List (String × Tree)) (k : String) (v : Tree)
    (h : lookupVal es k = some v) : (k, v) ∈ es := by
  induction es with
  | nil => simp [lookupVal] at h
  | cons e rest ih =>
      obtain ⟨k', v'⟩ := e
      by_cases hk : k' = k
      · rw [lookupVal, if_pos hk] at h
        obtain rfl := Option.some.inj h
        subst hk
        exact List.mem_cons_self _ _
      · rw [lookupVal, if_neg hk] at h
        exact List.mem_cons_of_mem _ (ih h)

theorem containsKey_eq_false_of_lookup_none (es : List (String × Tree)) (k : String)
    (h : lookupVal es k = none) : containsKey es k = false := by
  induction es with
  | nil => simp [containsKey]
  | cons e rest ih =>
      obtain ⟨k', v'⟩ := e
      by_cases hk : k' = k
      · rw [lookupVal, if_pos hk] at h
        exact absurd h (by simp)
      · rw [lookupVal, if_neg hk] at h
        simp [containsKey, hk]
        simpa [containsKey] using ih h

theorem nodup_mem_unique (es : List (String × Tree))
    (h : (es.map Prod.fst).Nodup) (k : String) (a b : Tree)
    (ha : (k, a) ∈ es) (hb : (k, b) ∈ es) : a = b := by
  have h1 := nodup_lookupVal es h (k, a) ha
  have h2 := nodup_lookupVal es h (k, b) hb
  rw [h1] at h2
  exact Option.some.inj h2

theorem joinKey_mem_of_containsKey (pre : String) (es : List (String × Tree)) (k : String)
    (h : containsKey es k = true) : joinKey pre k ∈ keyListEntries pre es := by
  rw [containsKey_mem] at h
  obtain ⟨kv, hkv, heq⟩ := List.mem_map.mp h
  rw [mem_keyListEntries]
  exact ⟨kv, hkv, Or.inl (by rw [heq])⟩

theorem mem_setKey_of_nodup (es : List (String × Tree)) (k : String) (v : Tree)
    (h : (es.map Prod.fst).Nodup) (kv : String × Tree) :
    kv ∈ setKey es k v ↔ ((kv ∈ es ∧ kv.1 ≠ k) ∨ kv = (k, v)) := by
  induction es with
  | nil =>
      simp only [setKey, List.mem_singleton, List.not_mem_nil, false_and, false_or]
  | cons e rest ih =>
      obtain ⟨k', v'⟩ := e
      rw [List.map_cons, List.nodup_cons] at h
      by_cases hk : k' = k
      · subst hk
        rw [setKey, if_pos rfl]
        simp only [List.mem_cons]
        constructor
        · rintro (rfl | hkv)
          · exact Or.inr rfl
          · refine Or.inl ⟨Or.inr hkv, ?_⟩
            intro hh
            exact h.1 (hh ▸ List.mem_map.mpr ⟨kv, hkv, rfl⟩)
        · rintro (⟨hkv | hkv, hne⟩ | rfl)
          · exact absurd (by rw [hkv]) hne
          · exact Or.inr hkv
          · exact Or.inl rfl
      · rw [setKey, if_neg hk]
        simp only [List.mem_cons, ih h.2]
        constructor
        · rintro (rfl | h1)
          · exact Or.inl ⟨Or.inl rfl, by simpa using hk⟩
          · rcases h1 with ⟨h1, h2⟩ | h1
            · exact Or.inl ⟨Or.inr h1, h2⟩
            · exact Or.inr h1
        · rintro (⟨hkv | hkv, hne⟩ | rfl)
          · exact Or.inl hkv
          · exact Or.inr (Or.inl ⟨hkv, hne⟩)
          · exact Or.inr (Or.inr rfl)

theorem wfEntries_setKey (es : List (String × Tree)) (k : String) (v : Tree)
    (h : wfEntries es = true) (hv : wellFormedT v = true) :
    wfEntries (setKey es k v) = true := by
  induction es with
  | nil => simp [setKey, wfEntries, hv]
  | cons e rest ih =>
      obtain ⟨k', v'⟩ := e
      rw [wfEntries, Bool.and_eq_true] at h
      by_cases hk : k' = k
      · rw [setKey, if_pos hk, wfEntries, Bool.and_eq_true]
        exact ⟨hv, h.2⟩
      · rw [setKey, if_neg hk, wfEntries, Bool.and_eq_true]
        exact ⟨h.1, ih h.2⟩

theorem wfEntries_append_singleton (es : List (String × Tree)) (k : String) (v : Tree)
    (h : wfEntries es = true) (hv : wellFormedT v = true) :
    wfEntries (es ++ [(k, v)]) = true := by
  induction es with
  | nil => simp [wfEntries, hv]
  | cons e rest ih =>
      obtain ⟨k', v'⟩ := e
      rw [wfEntries, Bool.and_eq_true] at h
      rw [List.cons_append, wfEntries, Bool.and_eq_true]
      exact ⟨h.1, ih h.2⟩

theorem mergeEntries_wf_aux : ∀ n : ℕ, ∀ s : List (String × Tree), sizeOf s < n →
    wellFormedT (.node s) = true →
    ∀ t, wellFormedT (.node t) = true →
      wellFormedT (.node (mergeEntries t s)) = true := by
  intro n
  induction n with
  | zero => intro s hs; omega
  | succ n ih =>
      intro s hs hwf t hwft
      cases s with
      | nil => exact hwft
      | cons e rest =>
          obtain ⟨k, v⟩ := e
          obtain ⟨hnd, hwfe⟩ := (wellFormedT_node_iff _).mp hwf
          rw [List.map_cons, List.nodup_cons] at hnd
          rw [wfEntries, Bool.and_eq_true] at hwfe
          have hwfv : wellFormedT v = true := hwfe.1
          have hwfrest : wellFormedT (.node rest) = true :=
            (wellFormedT_node_iff _).mpr ⟨hnd.2, hwfe.2⟩
          have hszrest : sizeOf rest < n := by
            simp only [List.cons.sizeOf_spec] at hs
            omega
          obtain ⟨hndt, hwfet⟩ := (wellFormedT_node_iff _).mp hwft
          -- well-formedness of the accumulator after one step, then recurse
          have hstep : ∀ acc' : List (String × Tree),
              wellFormedT (.node acc') = true →
              wellFormedT (.node (mergeEntries acc' rest)) = true :=
            fun acc' h' => ih rest hszrest hwfrest acc' h'
          have hkeys_setKey : ∀ w : Tree, wellFormedT w = true →
              wellFormedT (.node (setKey t k w)) = true := by
            intro w hw
            refine (wellFormedT_node_iff _).mpr ⟨?_, wfEntries_setKey t k w hwfet hw⟩
            rw [map_fst_setKey]
            by_cases hc : containsKey t k
            · simpa [hc] using hndt
            · rw [if_neg (by simpa using hc)]
              rw [List.nodup_append]
              refine ⟨hndt, List.nodup_singleton _, ?_⟩
              intro x hx hx'
              rw [List.mem_singleton] at hx'
              exact (fun hmem => hc ((containsKey_mem t k).mpr hmem)) (hx' ▸ hx)
          cases v with
          | str s' =>
              rw [mergeEntries_cons_str]
              apply hstep
              by_cases hc : containsKey t k
              · rwa [if_pos hc]
              · rw [if_neg hc]
                refine (wellFormedT_node_iff _).mpr
                  ⟨?_, wfEntries_append_singleton t k _ hwfet hwfv⟩
                rw [List.map_append, List.map_singleton, List.nodup_append]
                refine ⟨hndt, List.nodup_singleton _, ?_⟩
                intro x hx hx'
                rw [List.mem_singleton] at hx'
                have hx2 : x = k := by simpa using hx'
                exact (fun hmem => hc ((containsKey_mem t k).mpr hmem)) (hx2 ▸ hx)
          | other m =>
              rw [mergeEntries_cons_other]
              apply hstep
              by_cases hc : containsKey t k
              · rwa [if_pos hc]
              · rw [if_neg hc]
                refine (wellFormedT_node_iff _).mpr
                  ⟨?_, wfEntries_append_singleton t k _ hwfet hwfv⟩
                rw [List.map_append, List.map_singleton, List.nodup_append]
                refine ⟨hndt, List.nodup_singleton _, ?_⟩
                intro x hx hx'
                rw [List.mem_singleton] at hx'
                have hx2 : x = k := by simpa using hx'
                exact (fun hmem => hc ((containsKey_mem t k).mpr hmem)) (hx2 ▸ hx)
          | node sv =>
              have hszsv : sizeOf sv < n := by
                simp only [List.cons.sizeOf_spec, Prod.mk.sizeOf_spec,
                  Tree.node.sizeOf_spec] at hs
                omega
              rw [mergeEntries_cons_node]
              rcases hlv : lookupVal t k with _ | w
              · simp only []
                exact hstep _ (hkeys_setKey _ hwfv)
              · cases w with
                | node tv =>
                    simp only []
                    have hwftv : wellFormedT (Tree.node tv) = true :=
                      wfEntries_mem t hwfet _ (lookupVal_mem t k _ hlv)
                    have hwfmerged : wellFormedT (.node (mergeEntries tv sv)) = true :=
                      ih sv hszsv hwfv tv hwftv
                    exact hstep _ (hkeys_setKey _ hwfmerged)
                | str s' =>
                    simp only []
                    exact hstep _ (hkeys_setKey _ hwfv)
                | other m =>
                    simp only []
                    exact hstep _ (hkeys_setKey _ hwfv)

theorem mergeEntries_wf (s t : List (String × Tree))
    (hs : wellFormedT (.node s) = true) (ht : wellFormedT (.node t) = true) :
    wellFormedT (.node (mergeEntries t s)) = true :=
  mergeEntries_wf_aux (sizeOf s + 1) s (by omega) hs t ht

theorem wellFormedT_setKey (t : List (String × Tree))
    (ht : wellFormedT (.node t) = true) (k : String) (w : Tree)
    (hw : wellFormedT w = true) :
    wellFormedT (.node (setKey t k w)) = true := by
  obtain ⟨hndt, hwfet⟩ := (wellFormedT_node_iff _).mp ht
  refine (wellFormedT_node_iff _).mpr ⟨?_, wfEntries_setKey t k w hwfet hw⟩
  rw [map_fst_setKey]
  by_cases hc : containsKey t k
  · simpa [hc] using hndt
  · rw [if_neg (by simpa using hc)]
    rw [List.nodup_append]
    refine ⟨hndt, List.nodup_singleton _, ?_⟩
    intro x hx hx'
    rw [List.mem_singleton] at hx'
    exact (fun hmem => hc ((containsKey_mem t k).mpr hmem)) (hx' ▸ hx)

theorem keys_setKey_iff (t : List (String × Tree))
    (hndt : (t.map Prod.fst).Nodup) (k : String) (w : Tree) (pre p : String) :
    p ∈ keyListEntries pre (setKey t k w) ↔
      ((∃ kv ∈ t, kv.1 ≠ k ∧
          (p = joinKey pre kv.1 ∨ p ∈ keyList (joinKey pre kv.1) kv.2))
        ∨ p = joinKey pre k ∨ p ∈ keyList (joinKey pre k) w) := by
  rw [mem_keyListEntries]
  constructor
  · rintro ⟨kv, hin, hp⟩
    rcases (mem_setKey_of_nodup t k w hndt kv).mp hin with ⟨h1, hne⟩ | rfl
    · exact Or.inl ⟨kv, h1, hne, hp⟩
    · exact Or.inr hp
  · rintro (⟨kv, h1, hne, hp⟩ | hp)
    · exact ⟨kv, (mem_setKey_of_nodup t k w hndt kv).mpr (Or.inl ⟨h1, hne⟩), hp⟩
    · exact ⟨(k, w), (mem_setKey_of_nodup t k w hndt _).mpr (Or.inr rfl), hp⟩

theorem keys_mem_split (t : List (String × Tree))
    (hndt : (t.map Prod.fst).Nodup) (k : String) (wOld : Tree)
    (hOld : (k, wOld) ∈ t) (pre p : String) :
    p ∈ keyListEntries pre t ↔
      ((∃ kv ∈ t, kv.1 ≠ k ∧
          (p = joinKey pre kv.1 ∨ p ∈ keyList (joinKey pre kv.1) kv.2))
        ∨ p = joinKey pre k ∨ p ∈ keyList (joinKey pre k) wOld) := by
  rw [mem_keyListEntries]
  constructor
  · rintro ⟨⟨k1, v1⟩, hkv, hp⟩
    by_cases hkk : k1 = k
    · subst hkk
      obtain rfl : v1 = wOld := nodup_mem_unique t hndt k1 v1 wOld hkv hOld
      exact Or.inr hp
    · exact Or.inl ⟨(k1, v1), hkv, by simpa using hkk, hp⟩
  · rintro (⟨kv, h1, _, hp⟩ | hp)
    · exact ⟨kv, h1, hp⟩
    · exact ⟨(k, wOld), hOld, hp⟩

theorem mergeEntries_keys_union_aux : ∀ n : ℕ, ∀ s : List (String × Tree), sizeOf s < n →
    wellFormedT (.node s) = true →
    ∀ t, wellFormedT (.node t) = true → ∀ pre p,
      (p ∈ keyListEntries pre (mergeEntries t s) ↔
        p ∈ keyListEntries pre t ∨ p ∈ keyListEntries pre s) := by
  intro n
  induction n with
  | zero => intro s hs; omega
  | succ n ih =>
      intro s hs hwf t hwft pre p
      cases s with
      | nil => simp [mergeEntries_nil, keyListEntries]
      | cons e rest =>
          obtain ⟨k, v⟩ := e
          obtain ⟨hnd, hwfe⟩ := (wellFormedT_node_iff _).mp hwf
          rw [List.map_cons, List.nodup_cons] at hnd
          rw [wfEntries, Bool.and_eq_true] at hwfe
          have hwfv : wellFormedT v = true := hwfe.1
          have hwfrest : wellFormedT (.node rest) = true :=
            (wellFormedT_node_iff _).mpr ⟨hnd.2, hwfe.2⟩
          have hszrest : sizeOf rest < n := by
            simp only [List.cons.sizeOf_spec] at hs
            omega
          obtain ⟨hndt, hwfet⟩ := (wellFormedT_node_iff _).mp hwft
          rw [keyListEntries_cons]
          simp only [List.mem_append, List.mem_cons]
          cases v with
          | str s' =>
              rw [mergeEntries_cons_str]
              have hacc'wf : wellFormedT (.node (if containsKey t k then t
                  else t ++ [(k, Tree.str s')])) = true := by
                by_cases hc : containsKey t k
                · rwa [if_pos hc]
                · rw [if_neg hc]
                  have := wellFormedT_setKey t hwft k (Tree.str s') hwfv
                  rwa [setKey_eq_append_of_not_containsKey _ _ _
                    (by simpa using hc)] at this
              rw [ih rest hszrest hwfrest _ hacc'wf pre p]
              have hkeys : p ∈ keyListEntries pre (if containsKey t k then t
                  else t ++ [(k, Tree.str s')]) ↔
                  (p ∈ keyListEntries pre t ∨ p = joinKey pre k) := by
                by_cases hc : containsKey t k
                · rw [if_pos hc]
                  constructor
                  · exact Or.inl
                  · rintro (h | rfl)
                    · exact h
                    · exact joinKey_mem_of_containsKey pre t k hc
                · rw [if_neg hc, keyListEntries_append]
                  simp [keyListEntries, keyList]
              rw [hkeys]
              simp only [keyList]
              tauto
          | other m =>
              rw [mergeEntries_cons_other]
              have hacc'wf : wellFormedT (.node (if containsKey t k then t
                  else t ++ [(k, Tree.other m)])) = true := by
                by_cases hc : containsKey t k
                · rwa [if_pos hc]
                · rw [if_neg hc]
                  have := wellFormedT_setKey t hwft k (Tree.other m) hwfv
                  rwa [setKey_eq_append_of_not_containsKey _ _ _
                    (by simpa using hc)] at this
              rw [ih rest hszrest hwfrest _ hacc'wf pre p]
              have hkeys : p ∈ keyListEntries pre (if containsKey t k then t
                  else t ++ [(k, Tree.other m)]) ↔
                  (p ∈ keyListEntries pre t ∨ p = joinKey pre k) := by
                by_cases hc : containsKey t k
                · rw [if_pos hc]
                  constructor
                  · exact Or.inl
                  · rintro (h | rfl)
                    · exact h
                    · exact joinKey_mem_of_containsKey pre t k hc
                · rw [if_neg hc, keyListEntries_append]
                  simp [keyListEntries, keyList]
              rw [hkeys]
              simp only [keyList]
              tauto
          | node sv =>
              have hszsv : sizeOf sv < n := by
                simp only [List.cons.sizeOf_spec, Prod.mk.sizeOf_spec,
                  Tree.node.sizeOf_spec] at hs
                omega
              rw [mergeEntries_cons_node]
              rcases hlv : lookupVal t k with _ | w
              · simp only [hlv]
                have hc : containsKey t k = false :=
                  containsKey_eq_false_of_lookup_none t k hlv
                have hacc'wf : wellFormedT (.node (setKey t k (Tree.node sv))) = true :=
                  wellFormedT_setKey t hwft k _ hwfv
                rw [ih rest hszrest hwfrest _ hacc'wf pre p]
                rw [setKey_eq_append_of_not_containsKey _ _ _ hc, keyListEntries_append]
                simp only [List.mem_append, keyListEntries, keyList,
                  List.mem_cons, List.append_nil, List.not_mem_nil, or_false]
                tauto
              · cases w with
                | node tv =>
                    simp only [hlv]
                    rw [show deepMerge (Tree.node tv) (Tree.node sv)
                        = Tree.node (mergeEntries tv sv) from rfl]
                    have htv : (k, Tree.node tv) ∈ t := lookupVal_mem t k _ hlv
                    have hwftv : wellFormedT (Tree.node tv) = true :=
                      wfEntries_mem t hwfet _ htv
                    have hacc'wf : wellFormedT
                        (.node (setKey t k (Tree.node (mergeEntries tv sv)))) = true :=
                      wellFormedT_setKey t hwft k _ (mergeEntries_wf sv tv hwfv hwftv)
                    rw [ih rest hszrest hwfrest _ hacc'wf pre p]
                    rw [keys_setKey_iff t hndt k _ pre p]
                    rw [keys_mem_split t hndt k _ htv pre p]
                    have hinner := ih sv hszsv hwfv tv hwftv (joinKey pre k) p
                    simp only [keyList] at hinner ⊢
                    rw [hinner]
                    generalize (∃ kv ∈ t, kv.1 ≠ k ∧
                      (p = joinKey pre kv.1 ∨ p ∈ keyList (joinKey pre kv.1) kv.2)) = A
                    tauto
                | str w =>
                    simp only [hlv]
                    have hw : (k, Tree.str w) ∈ t := lookupVal_mem t k _ hlv
                    have hacc'wf : wellFormedT (.node (setKey t k (Tree.node sv))) = true :=
                      wellFormedT_setKey t hwft k _ hwfv
                    rw [ih rest hszrest hwfrest _ hacc'wf pre p]
                    rw [keys_setKey_iff t hndt k _ pre p]
                    rw [keys_mem_split t hndt k _ hw pre p]
                    simp only [keyList, List.not_mem_nil, or_false]
                    generalize (∃ kv ∈ t, kv.1 ≠ k ∧
                      (p = joinKey pre kv.1 ∨ p ∈ keyList (joinKey pre kv.1) kv.2)) = A
                    tauto
                | other w =>
                    simp only [hlv]
                    have hw : (k, Tree.other w) ∈ t := lookupVal_mem t k _ hlv
                    have hacc'wf : wellFormedT (.node (setKey t k (Tree.node sv))) = true :=
                      wellFormedT_setKey t hwft k _ hwfv
                    rw [ih rest hszrest hwfrest _ hacc'wf pre p]
                    rw [keys_setKey_iff t hndt k _ pre p]
                    rw [keys_mem_split t hndt k _ hw pre p]
                    simp only [keyList, List.not_mem_nil, or_false]
                    generalize (∃ kv ∈ t, kv.1 ≠ k ∧
                      (p = joinKey pre kv.1 ∨ p ∈ keyList (joinKey pre kv.1) kv.2)) = A
                    tauto

/-! ### Claim C10 (confirmed): merging takes the union of key-path sets -/

/-- **C10.**  For well-formed catalogs (root objects with pairwise
distinct keys at every node), the set of dotted key paths that
`extractAllKeys`/`extractKeys` produces for `deepMerge(A, B)` is
exactly the union of the key-path sets of `A` and `B`, for either
argument order: merging never drops a path of either operand and never
invents one. -/
theorem deepMerge_key_paths_union (ea eb : List (String × Tree))
    (hA : wellFormedT (.node ea) = true) (hB : wellFormedT (.node eb) = true)
    (p : String) :
    p ∈ extractKeys (deepMerge (.node ea) (.node eb)) ↔
      p ∈ extractKeys (.node ea) ∨ p ∈ extractKeys (.node eb) := by
  rw [show deepMerge (Tree.node ea) (Tree.node eb)
      = Tree.node (mergeEntries ea eb) from rfl]
  rw [mem_extractKeys, mem_extractKeys, mem_extractKeys]
  simp only [keyList]
  exact mergeEntries_keys_union_aux (sizeOf eb + 1) eb (by omega) hB ea hA "" p

/-- **C10 witness.**  The union theorem applied at
A = `{"a":"x","n":{"c":"y"}}`, B = `{"n":{"d":"z"},"b":"w"}` and the
nested path `"n.d"` (present only in B, preserved by the merge). -/
theorem deepMerge_key_paths_union_witness :
    wellFormedT (Tree.node [("a", .str "x"), ("n", .node [("c", .str "y")])]) = true ∧
    wellFormedT (Tree.node [("n", .node [("d", .str "z")]), ("b", .str "w")]) = true ∧
    ("n.d" ∈ extractKeys (deepMerge
        (Tree.node [("a", .str "x"), ("n", .node [("c", .str "y")])])
        (Tree.node [("n", .node [("d", .str "z")]), ("b", .str "w")])) ↔
      "n.d" ∈ extractKeys (Tree.node [("a", .str "x"), ("n", .node [("c", .str "y")])]) ∨
      "n.d" ∈ extractKeys (Tree.node [("n", .node [("d", .str "z")]), ("b", .str "w")])) :=
  ⟨by decide, by decide,
   deepMerge_key_paths_union
     [("a", .str "x"), ("n", .node [("c", .str "y")])]
     [("n", .node [("d", .str "z")]), ("b", .str "w")]
     (by decide) (by decide) "n.d"⟩

end UID
